import Mathlib

/-!
# golgo: Conway's Game of Life on a toroidal grid

A shallow embedding of `golgo.go` (and of the older variant `life.go`) together
with the properties of the field, the generation step, the randomizer and
the loop of `Run`.

Modelling conventions

* Go `int` is a 64-bit two's complement integer.  Values are `Int`; an
  addition or product that can leave the range of `int` is followed by
  `wrap64`.  Loop counters (bounded by the loop limit) and the neighbour tally
  of `Next` (at most 8) cannot.
* Go `%` and `/` truncate towards zero: `Int.tmod`, `Int.tdiv`.
* `math/rand` is an external source: the values it returns are a parameter
  `draws`, the `i`-th pass of the loop of `Randomize` receiving `draws i`.
* A slice is a `List`; indexing with an index outside `[0, len)` panics, and
  `make` panics for a negative length or a request beyond `maxAlloc` bytes.
* A panicking call returns `Except.error`; a call that returns gives
  `Except.ok`.
* `*Field` pointers of a `Life` are modelled by value: the two fields of a
  `Life` are distinct allocations, as `NewLife` builds them.
* The terminal library termbox-go is external: the calls the program makes to
  it are recorded as `TermOp` values, and the event a pass of the loop of
  `Run` receives from `eventQueue` (none when the `select` takes its `default`
  branch) is a parameter of `Life.iterate`.
-/

namespace Golgo

/-! ## The program -/

/-- Run-time panics of the program. -/
inductive Panic where
  | divideByZero
  | indexOutOfRange
  | makeLenOutOfRange
  | invalidArgument
  deriving DecidableEq, Repr

/-- A computation that either returns or panics. -/
abbrev Result := Except Panic

instance {α : Type} [DecidableEq α] : DecidableEq (Result α) := fun a b =>
  match a, b with
  | .ok x, .ok y =>
    if h : x = y then isTrue (by rw [h]) else isFalse (fun h' => h (Except.ok.inj h'))
  | .error x, .error y =>
    if h : x = y then isTrue (by rw [h]) else isFalse (fun h' => h (Except.error.inj h'))
  | .ok _, .error _ => isFalse (fun h => Except.noConfusion h)
  | .error _, .ok _ => isFalse (fun h => Except.noConfusion h)

/-- Two's complement wrap-around of a 64-bit signed integer. -/
def wrap64 (n : Int) : Int :=
  (n + 9223372036854775808) % 18446744073709551616 - 9223372036854775808

/-- Go's `a % b` on `int`: truncated remainder, panics when `b` is zero. -/
def goMod (a b : Int) : Result Int :=
  if b = 0 then .error .divideByZero else .ok (Int.tmod a b)

/-- Slice read `l[i]`. -/
def index {α : Type} (l : List α) (i : Int) : Result α :=
  if i < 0 then .error .indexOutOfRange
  else match l[i.toNat]? with
    | some v => .ok v
    | none => .error .indexOutOfRange

/-- Slice write `l[i] = v`. -/
def assign {α : Type} (l : List α) (i : Int) (v : α) : Result (List α) :=
  if 0 ≤ i ∧ i.toNat < l.length then .ok (l.set i.toNat v)
  else .error .indexOutOfRange

/-- Largest request, in bytes, that the allocator of the Go runtime accepts on
a 64-bit platform (`maxAlloc`, `1 << 48`). -/
def maxAlloc : Int := 281474976710656

/-- Size in bytes of a `bool`. -/
def boolSize : Int := 1

/-- Size in bytes of a slice header, the element of a `[][]bool`, on a 64-bit
platform. -/
def sliceSize : Int := 24

/-- Allocation `make([]T, n)` for elements of `size` bytes: `n` zero values.
The runtime panics (`makeslice: len out of range`) when `n` is negative or
`n * size` exceeds `maxAlloc`.  Exhausting the memory of the machine below
that limit ends the process with a fatal error; that is no panic and is
outside the model. -/
def make {α : Type} (size n : Int) (zero : α) : Result (List α) :=
  if n < 0 ∨ maxAlloc < n * size then .error .makeLenOutOfRange
  else .ok (List.replicate n.toNat zero)

/-- Counted loop `for i := 0; i < n; i++ { body }` threading a state. -/
def forLoop {σ : Type} (n : Int) (body : Int → σ → Result σ) (init : σ) : Result σ :=
  (List.range n.toNat).foldlM (fun st (i : Nat) => body (i : Int) st) init

/-- Field represents a two-dimensional field of cells. -/
structure Field where
  s : List (List Bool)
  w : Int
  h : Int
  deriving DecidableEq, Repr

/-- `Field.Set`: `f.s[y][x] = b`. -/
def Field.Set (f : Field) (x y : Int) (b : Bool) : Result Field := do
  let row ← index f.s y
  let row ← assign row x b
  let s ← assign f.s y row
  pure { f with s := s }

/-- `Field.Clear`: a fresh grid of `f.h` rows of `f.w` dead cells. -/
def Field.Clear (f : Field) : Result Field := do
  let s ← make sliceSize f.h ([] : List Bool)
  let s ← forLoop (s.length : Int)
    (fun i s => do
      let row ← make boolSize f.w false
      assign s i row) s
  pure { f with s := s }

/-- `NewField` of `golgo.go`. -/
def NewField (w h : Int) : Result Field :=
  Field.Clear { s := [], w := w, h := h }

/-- `NewField` of `life.go`: the grid is allocated in place. -/
def LifeGo.NewField (w h : Int) : Result Field := do
  let s ← make sliceSize h ([] : List Bool)
  let s ← forLoop (s.length : Int)
    (fun i s => do
      let row ← make boolSize w false
      assign s i row) s
  pure { s := s, w := w, h := h }

/-- `Field.Alive`: `x += f.w; x %= f.w; y += f.h; y %= f.h; f.s[y][x]`. -/
def Field.Alive (f : Field) (x y : Int) : Result Bool := do
  let x := wrap64 (x + f.w)
  let x ← goMod x f.w
  let y := wrap64 (y + f.h)
  let y ← goMod y f.h
  let row ← index f.s y
  index row x

/-- The offsets `-1, 0, 1` the loops of `Next` run through. -/
def offsets : List Int := [-1, 0, 1]

/-- `Field.Next`: count the live neighbours, then apply the rule. -/
def Field.Next (f : Field) (x y : Int) : Result Bool := do
  let alive ← offsets.foldlM
    (fun acc i => offsets.foldlM
      (fun acc j =>
        if j ≠ 0 ∨ i ≠ 0 then do
          let a ← f.Alive (wrap64 (x + i)) (wrap64 (y + j))
          pure (if a then acc + 1 else acc)
        else pure acc) acc) (0 : Int)
  if alive = 3 then pure true
  else if alive = 2 then f.Alive x y
  else pure false

/-- `rand.Intn(n)`: panics unless `0 < n`, otherwise returns the drawn value. -/
def randIntn (drawn n : Int) : Result Int :=
  if n ≤ 0 then .error .invalidArgument else .ok drawn

/-- `Field.Randomize`: clear, then set `w * h / 4` drawn cells alive. -/
def Field.Randomize (draws : Nat → Int × Int) (f : Field) : Result Field := do
  let f ← f.Clear
  forLoop (Int.tdiv (wrap64 (f.w * f.h)) 4)
    (fun i f => do
      let x ← randIntn (draws i.toNat).1 f.w
      let y ← randIntn (draws i.toNat).2 f.h
      f.Set x y true) f

/-- Life stores the state of a round of Conway's Game of Life. -/
structure Life where
  a : Field
  b : Field
  w : Int
  h : Int
  generation : Int
  paused : Bool
  deriving DecidableEq, Repr

/-- `Life.Step`: fill `b` from `a`, swap the fields, count the generation. -/
def Life.Step (l : Life) : Result Life := do
  let b ← forLoop l.h
    (fun y b => forLoop l.w
      (fun x b => do
        let v ← l.a.Next x y
        b.Set x y v) b) l.b
  pure { l with a := b, b := l.a, generation := wrap64 (l.generation + 1) }

/-- `Life.Randomize`: randomize the current field, restart the count. -/
def Life.Randomize (draws : Nat → Int × Int) (l : Life) : Result Life := do
  let a ← l.a.Randomize draws
  pure { l with a := a, generation := 1 }

/-- Both allocations of a `w` by `h` grid, a row of `w` cells and the slice of
`h` rows, are within `maxAlloc`. -/
def withinAlloc (w h : Int) : Prop :=
  w * boolSize ≤ maxAlloc ∧ h * sliceSize ≤ maxAlloc

instance (w h : Int) : Decidable (withinAlloc w h) := by
  unfold withinAlloc; infer_instance

/-- A random source that always draws the cell `(0, 0)`. -/
def zeroDraws : Nat → Int × Int := fun _ => (0, 0)

/-- The stored cell `f.s[y][x]` of a field (dead outside the grid). -/
def Field.cell (f : Field) (x y : Int) : Bool :=
  (f.s.getD y.toNat []).getD x.toNat false

/-- A field as `NewField` allocates it: positive dimensions, `h` rows of
exactly `w` cells.  The grid lives in memory, so twice a dimension is far
inside the range of `int`. -/
def Field.WF (f : Field) : Prop :=
  0 < f.w ∧ 0 < f.h ∧ f.w < 4611686018427387904 ∧ f.h < 4611686018427387904 ∧
  f.s.length = f.h.toNat ∧ ∀ r ∈ f.s, r.length = f.w.toNat

instance (f : Field) : Decidable f.WF := by
  unfold Field.WF; infer_instance

/-- The eight neighbour offsets `(i, j)`, in the order `Next` visits them. -/
def neighbourOffsets : List (Int × Int) :=
  [(-1, -1), (-1, 0), (-1, 1), (0, -1), (0, 1), (1, -1), (1, 0), (1, 1)]

/-- Number of neighbour offsets at which `n` holds. -/
def countLive (n : Int → Int → Bool) : Nat :=
  (neighbourOffsets.map (fun p => n p.1 p.2)).count true

/-- The rule of the game on a neighbour count and the current state. -/
def rule (c : Nat) (self : Bool) : Bool :=
  decide (c = 3) || (decide (c = 2) && self)

/-- Next state of a cell computed from the stored cells of its toroidal
neighbourhood. -/
def Field.nextCell (f : Field) (x y : Int) : Bool :=
  rule (countLive (fun i j => f.cell ((x + i) % f.w) ((y + j) % f.h))) (f.cell x y)

/-- The grid after the write `s[y][x] = b`. -/
def setCell (s : List (List Bool)) (x y : Int) (b : Bool) : List (List Bool) :=
  s.set y.toNat ((s.getD y.toNat []).set x.toNat b)

/-- A `Life` whose two fields are well formed and have the dimensions the
`Life` records. -/
def Life.WF (l : Life) : Prop :=
  l.a.WF ∧ l.b.WF ∧ l.a.w = l.w ∧ l.a.h = l.h ∧ l.b.w = l.w ∧ l.b.h = l.h

instance (l : Life) : Decidable l.WF := by
  unfold Life.WF; infer_instance

/-- A 3 x 3 field with a diagonal of live cells. -/
def sampleField : Field :=
  { s := [[true, false, false], [false, true, false], [false, false, true]], w := 3, h := 3 }

/-- A 3 x 3 field holding stale cells, used as a scratch field. -/
def staleField : Field :=
  { s := [[true, true, false], [true, false, true], [false, true, true]], w := 3, h := 3 }

/-- A 3 x 3 field of dead cells. -/
def deadField : Field :=
  { s := [[false, false, false], [false, false, false], [false, false, false]], w := 3, h := 3 }

/-- A well-formed `Life` on `sampleField`. -/
def sampleLife : Life :=
  { a := sampleField, b := deadField, w := 3, h := 3, generation := 1, paused := false }

/-- The element stored at column `x` of row `y` of the grid, when there is one. -/
def Field.stored (f : Field) (x y : Int) : Option Bool :=
  if x < 0 ∨ y < 0 then none
  else (f.s[y.toNat]?).bind (fun row => row[x.toNat]?)

/-- A field of one row and two columns, the left cell alive. -/
def pairField : Field := { s := [[true, false]], w := 2, h := 1 }

/-- A field of one row and three columns, the middle cell alive. -/
def tripleField : Field := { s := [[false, true, false]], w := 3, h := 1 }

/-- The positions `(x, y)` of a `w` by `h` grid. -/
def gridPositions (w h : Int) : List (Int × Int) :=
  (List.product (List.range w.toNat) (List.range h.toNat)).map
    (fun p => ((p.1 : Int), (p.2 : Int)))

/-- The in-range positions at which `Alive` returns `true`. -/
def Field.liveCells (f : Field) : List (Int × Int) :=
  (gridPositions f.w f.h).filter (fun p => decide (f.Alive p.1 p.2 = .ok true))

/-- The first `n` drawn coordinates. -/
def firstDraws (draws : Nat → Int × Int) (n : Nat) : List (Int × Int) :=
  (List.range n).map draws

/-- A sequence of draws for a 3 x 3 field. -/
def sampleDraws : Nat → Int × Int := fun i => if i = 0 then (2, 1) else (0, 2)

/-- The 2 x 2 block with lower corner `(x0, y0)`. -/
def isBlock (x0 y0 x y : Int) : Bool :=
  decide ((x = x0 ∨ x = x0 + 1) ∧ (y = y0 ∨ y = y0 + 1))

/-- The horizontal line of three cells centred at `(cx, cy)`. -/
def isHorizontal (cx cy x y : Int) : Bool :=
  decide ((x = cx - 1 ∨ x = cx ∨ x = cx + 1) ∧ y = cy)

/-- The vertical line of three cells centred at `(cx, cy)`. -/
def isVertical (cx cy x y : Int) : Bool :=
  decide (x = cx ∧ (y = cy - 1 ∨ y = cy ∨ y = cy + 1))

/-- The eight neighbour values of `(x, y)` on a `w` by `h` torus, in the order
`Next` visits them, for cells described by `P`. -/
def neighbourValues (P : Int → Int → Bool) (w h x y : Int) : List Bool :=
  [P ((x + -1) % w) ((y + -1) % h), P ((x + -1) % w) y, P ((x + -1) % w) ((y + 1) % h),
   P x ((y + -1) % h), P x ((y + 1) % h),
   P ((x + 1) % w) ((y + -1) % h), P ((x + 1) % w) y, P ((x + 1) % w) ((y + 1) % h)]

/-- A 4 x 4 `Life` holding a block at `(1, 1)`, with a stale scratch field. -/
def blockLife : Life :=
  { a := { s := [[false, false, false, false], [false, true, true, false],
                 [false, true, true, false], [false, false, false, false]], w := 4, h := 4 },
    b := { s := [[true, false, true, false], [false, false, true, true],
                 [true, true, false, false], [false, true, false, true]], w := 4, h := 4 },
    w := 4, h := 4, generation := 1, paused := false }

/-- A 5 x 5 `Life` holding a horizontal blinker centred at `(2, 2)`. -/
def blinkerLife : Life :=
  { a := { s := [[false, false, false, false, false], [false, false, false, false, false],
                 [false, true, true, true, false], [false, false, false, false, false],
                 [false, false, false, false, false]], w := 5, h := 5 },
    b := { s := [[true, false, false, false, true], [false, false, true, false, false],
                 [false, true, false, true, false], [false, false, true, false, false],
                 [true, false, false, false, true]], w := 5, h := 5 },
    w := 5, h := 5, generation := 1, paused := false }

/-- `Life.Pause`: `l.paused = !l.paused`. -/
def Life.Pause (l : Life) : Life :=
  { l with paused := !l.paused }

/-- `Life.IsPaused`. -/
def Life.IsPaused (l : Life) : Bool :=
  l.paused

/-- Event types of the terminal library termbox-go, in the order of its
declaration; the program only tests for `EventKey`. -/
inductive EventType where
  | EventKey
  | EventResize
  | EventMouse
  | EventError
  | EventInterrupt
  | EventRaw
  | EventNone
  deriving DecidableEq, Repr

/-- The fields of a termbox-go event the program reads.  For a key event the
library sets `Ch` to the typed character, or to the zero character when the
key is one of the `Key` constants. -/
structure Event where
  typ : EventType
  Key : Nat
  Ch : Char
  deriving DecidableEq, Repr

/-- Key code of Escape in termbox-go (`0x1B`). -/
def KeyEsc : Nat := 27

/-- Key code of Ctrl-C in termbox-go (`0x03`). -/
def KeyCtrlC : Nat := 3

/-- Key code of Ctrl-D in termbox-go (`0x04`). -/
def KeyCtrlD : Nat := 4

/-- The termbox-go colours the program uses. -/
inductive Color where
  | ColorBlack
  | ColorBlue
  | ColorWhite
  deriving DecidableEq, Repr

/-- The calls the program makes to the terminal. -/
inductive TermOp where
  | Clear (fg bg : Color)
  | SetCell (x y : Int) (ch : Char) (fg bg : Color)
  | Flush
  deriving DecidableEq, Repr

def gameBorderCol : Int := 2

def gameBorderRow : Int := 1

def textColor : Color := Color.ColorWhite

def backgroundColor : Color := Color.ColorBlue

def cellColor : Color := Color.ColorWhite

def boardColor : Color := Color.ColorBlack

def titles : List String :=
  ["Conways Game of Life", "--------------------", "eazynow 2016"]

def instructions : List String :=
  ["Controls:", "", "p    pause", "s    step", "r    randomize", "", "q    quit", ""]

/-- `tbprint` on the characters of the message: one `SetCell` per character,
`x` advancing by one. -/
def tbprintChars (x y : Int) (fg bg : Color) : List Char → List TermOp
  | [] => []
  | c :: cs => TermOp.SetCell x y c fg bg :: tbprintChars (wrap64 (x + 1)) y fg bg cs

/-- Function `tbprint` draws a string. -/
def tbprint (x y : Int) (fg bg : Color) (msg : String) : List TermOp :=
  tbprintChars x y fg bg msg.toList

/-- The loop `for y, t := range lines { tbprint(x, y0 + y, ...) }` of `Render`. -/
def printLines (x y0 : Int) : Nat → List String → List TermOp
  | _, [] => []
  | i, t :: ts =>
    tbprint x (wrap64 (y0 + (i : Int))) textColor backgroundColor t ++ printLines x y0 (i + 1) ts

/-- `Life.Render`: the terminal calls of one frame, in order. -/
def Life.Render (l : Life) : Result (List TermOp) := do
  let titleX := wrap64 (l.w + wrap64 (gameBorderCol * 2))
  let titleY := gameBorderRow
  let instrucX := titleX
  let instrucY := wrap64 (wrap64 (titleY + (titles.length : Int)) + 2)
  let pauseX := titleX
  let pauseY := wrap64 (wrap64 (gameBorderRow + l.h) - 2)
  let pauseMsg := if l.paused then "PAUSED" else "RUNNING"
  let genX := titleX
  let genY := wrap64 (pauseY + 1)
  let ops := [TermOp.Clear backgroundColor backgroundColor]
    ++ printLines titleX titleY 0 titles
    ++ printLines instrucX instrucY 0 instructions
    ++ tbprint pauseX pauseY textColor backgroundColor pauseMsg
    ++ tbprint genX genY textColor backgroundColor ("Generation: " ++ toString l.generation)
  let ops ← forLoop l.h
    (fun y ops => forLoop l.w
      (fun x ops => do
        let alive ← l.a.Alive x y
        let color := if alive then cellColor else boardColor
        pure (ops ++ [TermOp.SetCell (wrap64 (x + gameBorderCol)) (wrap64 (y + gameBorderRow))
          ' ' color color])) ops) ops
  pure (ops ++ [TermOp.Flush])

/-- What one pass of the loop of `Run` does besides changing the state. -/
inductive Effect where
  | step
  | render (ops : List TermOp)
  | sleep
  deriving DecidableEq, Repr

/-- The outcome of one pass of the loop of `Run`: the state, the effects in
order, and whether `Run` returned. -/
structure Outcome where
  life : Life
  effects : List Effect
  returned : Bool
  deriving DecidableEq, Repr

/-- One pass of the `for { select { ... } }` loop of `Life.Run`.  `pending` is
the event the `select` receives from `eventQueue`, if one is ready; with none
ready the `default` branch runs.  `draws` is the random source of this pass. -/
def Life.iterate (draws : Nat → Int × Int) (l : Life) (pending : Option Event) :
    Result Outcome :=
  match pending with
  | some ev =>
    if ev.typ = EventType.EventKey then
      if ev.Ch = 'p' then
        pure { life := l.Pause, effects := [], returned := false }
      else if ev.Ch = 's' then do
        let l := if !l.IsPaused then l.Pause else l
        let l ← l.Step
        pure { life := l, effects := [Effect.step], returned := false }
      else if ev.Ch = 'r' then do
        let l ← l.Randomize draws
        pure { life := l, effects := [], returned := false }
      else if ev.Ch = 'q' ∨ ev.Key = KeyEsc ∨ ev.Key = KeyCtrlC ∨ ev.Key = KeyCtrlD then
        pure { life := l, effects := [], returned := true }
      else
        pure { life := l, effects := [], returned := false }
    else
      pure { life := l, effects := [], returned := false }
  | none => do
    let (l, stepped) ← if !l.paused then (do
        let l ← l.Step
        pure (l, [Effect.step]))
      else pure (l, [])
    let ops ← l.Render
    pure { life := l, effects := stepped ++ [Effect.render ops, Effect.sleep],
           returned := false }

/-- `Life.Run` on a schedule: the `i`-th pass receives `schedule[i]` and the
random source `draws i`.  The loop stops when `Run` returns; the effects of
all passes are collected. -/
def Life.Run (draws : Nat → Nat → Int × Int) (l : Life) :
    Nat → List (Option Event) → Result Outcome
  | _, [] => pure { life := l, effects := [], returned := false }
  | i, pending :: rest => do
    let out ← l.iterate (draws i) pending
    if out.returned then pure out
    else do
      let later ← Life.Run draws out.life (i + 1) rest
      pure { later with effects := out.effects ++ later.effects }

/-- `NewLife`.  `initErr` is the error `termbox.Init()` returns, if any; the
inner result is the pair `(*Life, error)` the function returns. -/
def NewLife (initErr : Option String) (draws : Nat → Int × Int) (w h : Int) :
    Result (Except String Life) :=
  match initErr with
  | some err => pure (Except.error err)
  | none => do
    let a ← NewField w h
    let a ← a.Randomize draws
    let b ← NewField w h
    pure (Except.ok { a := a, b := b, w := w, h := h, generation := 1, paused := false })

/-- A call the program makes on a `Life` between two randomizations. -/
inductive Call where
  | Step
  | Pause
  deriving DecidableEq, Repr

/-- Run a sequence of `Step()` and `Pause()` calls. -/
def Life.calls (l : Life) : List Call → Result Life
  | [] => pure l
  | Call.Step :: cs => do
    let l ← l.Step
    l.calls cs
  | Call.Pause :: cs => l.Pause.calls cs

/-- The field whose cell `(x, y)` is the cell `((x + dx) mod w, (y + dy) mod h)`
of `f`. -/
def Field.shift (f : Field) (dx dy : Int) : Field :=
  { s := (List.range f.h.toNat).map (fun (y : Nat) =>
      (List.range f.w.toNat).map (fun (x : Nat) =>
        f.cell (((x : Int) + dx) % f.w) (((y : Int) + dy) % f.h))),
    w := f.w, h := f.h }

/-- A key event for the character `c`. -/
def charEvent (c : Char) : Event :=
  { typ := EventType.EventKey, Key := 0, Ch := c }

/-- A key event for the key code `k`. -/
def keyEvent (k : Nat) : Event :=
  { typ := EventType.EventKey, Key := k, Ch := Char.ofNat 0 }

/-- The state `NewLife(3, 3)` returns with the draws `sampleDraws`. -/
def newLifeSample : Life :=
  { a := { s := [[false, false, false], [false, false, true], [true, false, false]],
           w := 3, h := 3 },
    b := deadField, w := 3, h := 3, generation := 1, paused := false }

/-- Whether an effect is a call of `Render`. -/
def Effect.isRender : Effect → Bool
  | Effect.render _ => true
  | _ => false

/-! ## Basic facts -/

theorem wrap64_of_range {n : Int} (h1 : -9223372036854775808 ≤ n)
    (h2 : n ≤ 9223372036854775807) : wrap64 n = n := by
  unfold wrap64; omega

theorem index_ok {α : Type} (l : List α) (i : Int) (d : α) (h0 : 0 ≤ i)
    (h1 : i.toNat < l.length) : index l i = .ok (l.getD i.toNat d) := by
  unfold index
  simp [not_lt.mpr h0, List.getElem?_eq_getElem h1, List.getD_eq_getElem _ _ h1]

theorem index_err {α : Type} (l : List α) (i : Int)
    (h : i < 0 ∨ (l.length : Int) ≤ i) : index l i = .error .indexOutOfRange := by
  unfold index
  by_cases h0 : i < 0
  · simp [h0]
  · have h1 : l.length ≤ i.toNat := by omega
    simp [h0, List.getElem?_eq_none h1]

theorem Field.WF.row_length {f : Field} (hf : f.WF) {y : Int} (hy0 : 0 ≤ y) (hy : y < f.h) :
    (f.s.getD y.toNat []).length = f.w.toNat := by
  obtain ⟨_, _, _, _, hl, hr⟩ := hf
  have h1 : y.toNat < f.s.length := by omega
  rw [List.getD_eq_getElem _ _ h1]
  exact hr _ (List.getElem_mem _)

@[simp] theorem ok_bind {α β : Type} (a : α) (k : α → Result β) :
    (Except.ok a >>= k) = k a := rfl

@[simp] theorem error_bind {α β : Type} (e : Panic) (k : α → Result β) :
    ((Except.error e : Result α) >>= k) = Except.error e := rfl

@[simp] theorem pure_eq_ok {α : Type} (a : α) : (pure a : Result α) = Except.ok a := rfl

/-- `Alive` for coordinates at most one period below the grid: the stored cell
at the non-negative remainders. -/
theorem Field.Alive_wrap {f : Field} (hf : f.WF) {x y : Int}
    (hx0 : -f.w ≤ x) (hx : x + f.w ≤ 9223372036854775807)
    (hy0 : -f.h ≤ y) (hy : y + f.h ≤ 9223372036854775807) :
    f.Alive x y = .ok (f.cell (x % f.w) (y % f.h)) := by
  have hw := hf.1
  have hh := hf.2.1
  have hwx : wrap64 (x + f.w) = x + f.w := wrap64_of_range (by omega) hx
  have hwy : wrap64 (y + f.h) = y + f.h := wrap64_of_range (by omega) hy
  have hxm : (x + f.w).tmod f.w = x % f.w := by
    rw [Int.tmod_eq_emod (by omega) (by omega), Int.add_emod_self]
  have hym : (y + f.h).tmod f.h = y % f.h := by
    rw [Int.tmod_eq_emod (by omega) (by omega), Int.add_emod_self]
  have hx1 : 0 ≤ x % f.w := Int.emod_nonneg _ (by omega)
  have hx2 : x % f.w < f.w := Int.emod_lt_of_pos _ hw
  have hy1 : 0 ≤ y % f.h := Int.emod_nonneg _ (by omega)
  have hy2 : y % f.h < f.h := Int.emod_lt_of_pos _ hh
  have hrow := hf.row_length hy1 hy2
  have hlen := hf.2.2.2.2.1
  unfold Field.Alive goMod
  simp only [hwx, hwy, hxm, hym, if_neg (ne_of_gt hw), if_neg (ne_of_gt hh), ok_bind]
  rw [index_ok f.s _ [] hy1 (by omega), ok_bind, index_ok _ _ false hx1 (by omega)]
  rfl

/-- On a well-formed field, `Alive` at an in-range cell is the stored cell. -/
theorem Field.Alive_inrange {f : Field} (hf : f.WF) {x y : Int}
    (hx0 : 0 ≤ x) (hx : x < f.w) (hy0 : 0 ≤ y) (hy : y < f.h) :
    f.Alive x y = .ok (f.cell x y) := by
  have hw := hf.2.2.1
  have hh := hf.2.2.2.1
  rw [Field.Alive_wrap hf (by omega) (by omega) (by omega) (by omega),
    Int.emod_eq_of_lt hx0 hx, Int.emod_eq_of_lt hy0 hy]

theorem tally_eq (a : Bool) (acc : Int) :
    (if a = true then acc + 1 else acc) = acc + (bif a then 1 else 0) := by
  cases a <;> simp

theorem Field.Next_of_bits (f : Field) (x y : Int) (b1 b2 b3 b4 b5 b6 b7 b8 self : Bool)
    (h1 : f.Alive (wrap64 (x + -1)) (wrap64 (y + -1)) = .ok b1)
    (h2 : f.Alive (wrap64 (x + -1)) (wrap64 (y + 0)) = .ok b2)
    (h3 : f.Alive (wrap64 (x + -1)) (wrap64 (y + 1)) = .ok b3)
    (h4 : f.Alive (wrap64 (x + 0)) (wrap64 (y + -1)) = .ok b4)
    (h5 : f.Alive (wrap64 (x + 0)) (wrap64 (y + 1)) = .ok b5)
    (h6 : f.Alive (wrap64 (x + 1)) (wrap64 (y + -1)) = .ok b6)
    (h7 : f.Alive (wrap64 (x + 1)) (wrap64 (y + 0)) = .ok b7)
    (h8 : f.Alive (wrap64 (x + 1)) (wrap64 (y + 1)) = .ok b8)
    (hs : f.Alive x y = .ok self) :
    f.Next x y = .ok (rule ([b1, b2, b3, b4, b5, b6, b7, b8].count true) self) := by
  unfold Field.Next
  simp only [offsets, List.foldlM, tally_eq, h1, h2, h3, h4, h5, h6, h7, h8, hs, ok_bind,
    pure_eq_ok, ne_eq, one_ne_zero, not_false_eq_true, or_true, true_or, if_true,
    not_true_eq_false, or_self, if_false, neg_eq_zero, or_false, false_or]
  cases b1 <;> cases b2 <;> cases b3 <;> cases b4 <;> cases b5 <;> cases b6 <;>
    cases b7 <;> cases b8 <;> cases self <;> rfl

theorem Field.Next_of_alive (f : Field) (x y : Int) (n : Int → Int → Bool) (self : Bool)
    (hn : ∀ p ∈ neighbourOffsets,
      f.Alive (wrap64 (x + p.1)) (wrap64 (y + p.2)) = .ok (n p.1 p.2))
    (hs : f.Alive x y = .ok self) :
    f.Next x y = .ok (rule (countLive n) self) :=
  f.Next_of_bits x y _ _ _ _ _ _ _ _ self
    (hn (-1, -1) (by decide)) (hn (-1, 0) (by decide)) (hn (-1, 1) (by decide))
    (hn (0, -1) (by decide)) (hn (0, 1) (by decide)) (hn (1, -1) (by decide))
    (hn (1, 0) (by decide)) (hn (1, 1) (by decide)) hs

theorem neighbourOffsets_bounds {p : Int × Int} (hp : p ∈ neighbourOffsets) :
    -1 ≤ p.1 ∧ p.1 ≤ 1 ∧ -1 ≤ p.2 ∧ p.2 ≤ 1 := by
  simp only [neighbourOffsets, List.mem_cons, List.mem_singleton, List.not_mem_nil,
    or_false] at hp
  rcases hp with rfl | rfl | rfl | rfl | rfl | rfl | rfl | rfl <;> decide

/-- The `Alive` calls `Next` makes at an in-range cell all return. -/
theorem Field.Alive_neighbour {f : Field} (hf : f.WF) {x y i j : Int}
    (hx0 : 0 ≤ x) (hx : x < f.w) (hy0 : 0 ≤ y) (hy : y < f.h)
    (hi0 : -1 ≤ i) (hi : i ≤ 1) (hj0 : -1 ≤ j) (hj : j ≤ 1) :
    f.Alive (wrap64 (x + i)) (wrap64 (y + j))
      = .ok (f.cell ((x + i) % f.w) ((y + j) % f.h)) := by
  have hw := hf.2.2.1
  have hh := hf.2.2.2.1
  rw [wrap64_of_range (by omega) (by omega), wrap64_of_range (by omega) (by omega)]
  exact Field.Alive_wrap hf (by omega) (by omega) (by omega) (by omega)

theorem Field.Next_inrange {f : Field} (hf : f.WF) {x y : Int}
    (hx0 : 0 ≤ x) (hx : x < f.w) (hy0 : 0 ≤ y) (hy : y < f.h) :
    f.Next x y = .ok (f.nextCell x y) := by
  apply Field.Next_of_alive
  · intro p hp
    obtain ⟨h1, h2, h3, h4⟩ := neighbourOffsets_bounds hp
    exact Field.Alive_neighbour hf hx0 hx hy0 hy h1 h2 h3 h4
  · exact Field.Alive_inrange hf hx0 hx hy0 hy

theorem Field.Set_inrange {f : Field} (hf : f.WF) {x y : Int} (b : Bool)
    (hx0 : 0 ≤ x) (hx : x < f.w) (hy0 : 0 ≤ y) (hy : y < f.h) :
    f.Set x y b = .ok { f with s := setCell f.s x y b } := by
  have hrow := hf.row_length hy0 hy
  have hlen := hf.2.2.2.2.1
  have h1 : y.toNat < f.s.length := by omega
  have h2 : x.toNat < (f.s.getD y.toNat []).length := by omega
  unfold Field.Set
  rw [index_ok f.s y [] hy0 h1]
  simp only [ok_bind, assign, hx0, hy0, h1, h2, and_self, if_true, pure_eq_ok, setCell]

theorem Field.Set_outside (f : Field) (hf : f.WF) (x y : Int) (b : Bool)
    (h : x < 0 ∨ f.w ≤ x ∨ y < 0 ∨ f.h ≤ y) :
    f.Set x y b = .error .indexOutOfRange := by
  have hlen := hf.2.2.2.2.1
  unfold Field.Set
  by_cases hy : 0 ≤ y ∧ y < f.h
  · have hrow := hf.row_length hy.1 hy.2
    have h1 : y.toNat < f.s.length := by omega
    rw [index_ok f.s y [] hy.1 h1]
    have h2 : ¬ (0 ≤ x ∧ x.toNat < (f.s.getD y.toNat []).length) := by omega
    simp only [ok_bind, assign, h2, if_false, error_bind]
  · rw [index_err f.s y (by omega)]
    rfl

theorem setCell_wf {f : Field} (hf : f.WF) (x y : Int) (b : Bool) :
    Field.WF { f with s := setCell f.s x y b } := by
  obtain ⟨h1, h2, h3, h4, hl, hr⟩ := hf
  refine ⟨h1, h2, h3, h4, ?_, ?_⟩
  · simp [setCell, hl]
  · intro r hr'
    simp only [setCell] at hr'
    by_cases hy : y.toNat < f.s.length
    · rcases List.mem_or_eq_of_mem_set hr' with h | h
      · exact hr r h
      · subst h
        rw [List.length_set, List.getD_eq_getElem _ _ hy]
        exact hr _ (List.getElem_mem _)
    · rw [List.set_eq_of_length_le (by omega)] at hr'
      exact hr r hr'

theorem cell_setCell (f : Field) (hf : f.WF) {x y x' y' : Int} (b : Bool)
    (hx0 : 0 ≤ x) (hx : x < f.w) (hy0 : 0 ≤ y) (hy : y < f.h)
    (hx0' : 0 ≤ x') (hy0' : 0 ≤ y') :
    Field.cell { f with s := setCell f.s x y b } x' y'
      = if x' = x ∧ y' = y then b else f.cell x' y' := by
  have hrow := hf.row_length hy0 hy
  have hlen := hf.2.2.2.2.1
  have h1 : y.toNat < f.s.length := by omega
  have h2 : x.toNat < (f.s.getD y.toNat []).length := by omega
  simp only [Field.cell, setCell, List.getD_eq_getElem?_getD, List.getElem?_set]
  by_cases hyy : y' = y
  · subst hyy
    by_cases hxx : x' = x
    · subst hxx
      have h3 : x'.toNat < (f.s[y'.toNat]).length := by
        rw [List.getD_eq_getElem _ _ h1] at h2
        exact h2
      simp [h1, List.getElem?_set, h3]
    · have : x.toNat ≠ x'.toNat := by omega
      simp [h1, hxx, this]
  · have : y.toNat ≠ y'.toNat := by omega
    simp [hyy, this]

/-- Invariant rule for `forLoop`: an invariant that holds at the start and is
carried by every iteration (which returns) holds at the end, and the loop
returns. -/
theorem forLoop_inv {σ : Type} (n : Int) (body : Int → σ → Result σ) (init : σ)
    (Inv : Nat → σ → Prop) (h0 : Inv 0 init)
    (hstep : ∀ (i : Nat) (st : σ), (i : Int) < n → Inv i st →
      ∃ st', body (i : Int) st = .ok st' ∧ Inv (i + 1) st') :
    ∃ st, forLoop n body init = .ok st ∧ Inv n.toNat st := by
  unfold forLoop
  have key : ∀ k : Nat, k ≤ n.toNat →
      ∃ st, (List.range k).foldlM (fun st (i : Nat) => body (i : Int) st) init = .ok st
        ∧ Inv k st := by
    intro k
    induction k with
    | zero => intro _; exact ⟨init, rfl, h0⟩
    | succ k ih =>
      intro hk
      obtain ⟨st, hst, hinv⟩ := ih (by omega)
      obtain ⟨st', hb, hinv'⟩ := hstep k st (by omega) hinv
      refine ⟨st', ?_, hinv'⟩
      rw [List.range_succ, List.foldlM_append, hst]
      simp only [ok_bind, List.foldlM, hb, pure_eq_ok]
  exact key n.toNat le_rfl

/-- The inner loop of `Step` over the columns of row `y`. -/
theorem stepRow_spec (a b0 : Field) (w h y : Int) (ha : a.WF) (hb : b0.WF)
    (haw : a.w = w) (hah : a.h = h) (hbw : b0.w = w) (hbh : b0.h = h)
    (hy0 : 0 ≤ y) (hy : y < h) :
    ∃ b, forLoop w (fun x b => do
        let v ← a.Next x y
        b.Set x y v) b0 = .ok b ∧
      b.WF ∧ b.w = w ∧ b.h = h ∧
      ∀ x' y' : Int, 0 ≤ x' → x' < w → 0 ≤ y' →
        b.cell x' y' = if y' = y then a.nextCell x' y' else b0.cell x' y' := by
  obtain ⟨b, hloop, hwf, hw', hh', hcell⟩ := forLoop_inv w
    (fun x b => do
        let v ← a.Next x y
        b.Set x y v) b0
    (fun i b => b.WF ∧ b.w = w ∧ b.h = h ∧
      ∀ x' y' : Int, 0 ≤ x' → 0 ≤ y' →
        b.cell x' y' = if y' = y ∧ x' < i then a.nextCell x' y' else b0.cell x' y')
    ⟨hb, hbw, hbh, by
      intro x' y' hx' _
      have : ¬ (y' = y ∧ x' < ((0 : Nat) : Int)) := by omega
      rw [if_neg this]⟩
    (by
      intro i b hi ⟨hwf, hw', hh', hcell⟩
      have hi0 : (0 : Int) ≤ (i : Int) := Int.ofNat_nonneg i
      refine ⟨{ b with s := setCell b.s i y (a.nextCell i y) }, ?_, ?_, hw', hh', ?_⟩
      · simp only []
        rw [Field.Next_inrange ha hi0 (by omega) hy0 (by omega), ok_bind,
          Field.Set_inrange hwf _ hi0 (by omega) hy0 (by omega)]
      · exact setCell_wf hwf _ _ _
      · intro x' y' hx' hy'
        rw [cell_setCell b hwf _ hi0 (by omega) hy0 (by omega) hx' hy', hcell x' y' hx' hy']
        by_cases h1 : x' = (i : Int) ∧ y' = y
        · obtain ⟨h1, h2⟩ := h1
          subst h1 h2
          have : y' = y' ∧ (i : Int) < ((i + 1 : Nat) : Int) := ⟨rfl, by omega⟩
          simp
        · rw [if_neg h1]
          by_cases h2 : y' = y ∧ x' < (i : Int)
          · have : y' = y ∧ x' < ((i + 1 : Nat) : Int) := ⟨h2.1, by omega⟩
            rw [if_pos h2, if_pos this]
          · have : ¬ (y' = y ∧ x' < ((i + 1 : Nat) : Int)) := by omega
            rw [if_neg h2, if_neg this])
  refine ⟨b, hloop, hwf, hw', hh', ?_⟩
  intro x' y' hx0 hx hy'
  rw [hcell x' y' hx0 hy']
  by_cases h1 : y' = y
  · have : y' = y ∧ x' < (w.toNat : Int) := ⟨h1, by omega⟩
    rw [if_pos this, if_pos h1]
  · have : ¬ (y' = y ∧ x' < (w.toNat : Int)) := fun h => h1 h.1
    rw [if_neg this, if_neg h1]

/-- The two nested loops of `Step`: every cell of the scratch field receives
the next state of the same cell of the current field. -/
theorem stepLoops_spec (a b0 : Field) (w h : Int) (ha : a.WF) (hb : b0.WF)
    (haw : a.w = w) (hah : a.h = h) (hbw : b0.w = w) (hbh : b0.h = h) :
    ∃ b, forLoop h (fun y b => forLoop w (fun x b => do
        let v ← a.Next x y
        b.Set x y v) b) b0 = .ok b ∧
      b.WF ∧ b.w = w ∧ b.h = h ∧
      ∀ x' y' : Int, 0 ≤ x' → x' < w → 0 ≤ y' → y' < h →
        b.cell x' y' = a.nextCell x' y' := by
  obtain ⟨b, hloop, hwf, hw', hh', hcell⟩ := forLoop_inv h
    (fun y b => forLoop w (fun x b => do
        let v ← a.Next x y
        b.Set x y v) b) b0
    (fun j b => b.WF ∧ b.w = w ∧ b.h = h ∧
      ∀ x' y' : Int, 0 ≤ x' → x' < w → 0 ≤ y' →
        b.cell x' y' = if y' < (j : Int) then a.nextCell x' y' else b0.cell x' y')
    ⟨hb, hbw, hbh, by
      intro x' y' _ _ hy'
      have : ¬ (y' < ((0 : Nat) : Int)) := by omega
      rw [if_neg this]⟩
    (by
      intro j b hj ⟨hwf, hw', hh', hcell⟩
      have hj0 : (0 : Int) ≤ (j : Int) := Int.ofNat_nonneg j
      obtain ⟨b', hrow, hwf', hw'', hh'', hcell'⟩ :=
        stepRow_spec a b w h j ha hwf haw hah hw' hh' hj0 hj
      refine ⟨b', hrow, hwf', hw'', hh'', ?_⟩
      intro x' y' hx0 hx hy'
      rw [hcell' x' y' hx0 hx hy', hcell x' y' hx0 hx hy']
      by_cases h1 : y' = (j : Int)
      · have : y' < ((j + 1 : Nat) : Int) := by omega
        rw [if_pos h1, if_pos this]
      · rw [if_neg h1]
        by_cases h2 : y' < (j : Int)
        · have : y' < ((j + 1 : Nat) : Int) := by omega
          rw [if_pos h2, if_pos this]
        · have : ¬ (y' < ((j + 1 : Nat) : Int)) := by omega
          rw [if_neg h2, if_neg this])
  refine ⟨b, hloop, hwf, hw', hh', ?_⟩
  intro x' y' hx0 hx hy0 hy
  have : y' < (h.toNat : Int) := by omega
  rw [hcell x' y' hx0 hx hy0, if_pos this]

/-- `Step` on a well-formed `Life` returns; the new current field holds the
next state of every cell of the old one, the new scratch field is the old
current field. -/
theorem Life.Step_spec (l : Life) (hl : l.WF) :
    ∃ b, l.Step = .ok { l with a := b, b := l.a, generation := wrap64 (l.generation + 1) } ∧
      b.WF ∧ b.w = l.w ∧ b.h = l.h ∧
      ∀ x y : Int, 0 ≤ x → x < l.w → 0 ≤ y → y < l.h → b.cell x y = l.a.nextCell x y := by
  obtain ⟨ha, hb, haw, hah, hbw, hbh⟩ := hl
  obtain ⟨b, hloop, hrest⟩ := stepLoops_spec l.a l.b l.w l.h ha hb haw hah hbw hbh
  refine ⟨b, ?_, hrest⟩
  unfold Life.Step
  rw [hloop]
  rfl

/-- Two well-formed fields of the same dimensions with the same cells are equal. -/
theorem Field.ext_cells {f g : Field} (hf : f.WF) (hg : g.WF) (hw : f.w = g.w) (hh : f.h = g.h)
    (hc : ∀ x y : Int, 0 ≤ x → x < f.w → 0 ≤ y → y < f.h → f.cell x y = g.cell x y) :
    f = g := by
  have hfl := hf.2.2.2.2.1
  have hgl := hg.2.2.2.2.1
  have hs : f.s = g.s := by
    apply List.ext_getElem (by omega)
    intro j h1 h2
    have hj : ((j : Nat) : Int) < f.h := by omega
    have hfr := hf.row_length (Int.ofNat_nonneg j) hj
    have hgr := hg.row_length (Int.ofNat_nonneg j) (hh ▸ hj)
    simp only [Int.toNat_ofNat, List.getD_eq_getElem _ _ h1, List.getD_eq_getElem _ _ h2]
      at hfr hgr
    apply List.ext_getElem (by omega)
    intro i h3 h4
    have hi : ((i : Nat) : Int) < f.w := by omega
    have := hc i j (Int.ofNat_nonneg i) hi (Int.ofNat_nonneg j) hj
    simpa only [Field.cell, Int.toNat_ofNat, List.getD_eq_getElem _ _ h1,
      List.getD_eq_getElem _ _ h2, List.getD_eq_getElem _ _ h3,
      List.getD_eq_getElem _ _ h4] using this
  cases f; cases g
  simp only at hs hw hh
  subst hs hw hh
  rfl

/-! ## Step applies Next to every cell -/

/-- C1: on a well-formed `Life`, whatever the scratch field holds, `Step`
returns and every in-range cell of the new current field reads, through
`Alive`, the value `Next` returns for that cell on the field that was current
before the step; the new current field is the same for every well-formed
scratch field of the same dimensions. -/
theorem C1_step_applies_next (l : Life) (hl : l.WF) (scratch : Field) (hs : scratch.WF)
    (hsw : scratch.w = l.w) (hsh : scratch.h = l.h) :
    ∃ l1 l2 : Life, l.Step = .ok l1 ∧ Life.Step { l with b := scratch } = .ok l2 ∧
      l2.a = l1.a ∧
      ∀ x y : Int, 0 ≤ x → x < l.w → 0 ≤ y → y < l.h →
        ∃ v : Bool, l.a.Next x y = .ok v ∧ l1.a.Alive x y = .ok v := by
  obtain ⟨b1, h1, hwf1, hw1, hh1, hc1⟩ := Life.Step_spec l hl
  have hl2 : Life.WF { l with b := scratch } :=
    ⟨hl.1, hs, hl.2.2.1, hl.2.2.2.1, hsw, hsh⟩
  obtain ⟨b2, h2, hwf2, hw2, hh2, hc2⟩ := Life.Step_spec _ hl2
  refine ⟨_, _, h1, h2, ?_, ?_⟩
  · apply Field.ext_cells hwf2 hwf1 (hw2.trans hw1.symm) (hh2.trans hh1.symm)
    intro x y hx0 hx hy0 hy
    have hw2' : b2.w = l.w := hw2
    have hh2' : b2.h = l.h := hh2
    rw [hc2 x y hx0 (by omega) hy0 (by omega), hc1 x y hx0 (by omega) hy0 (by omega)]
  · intro x y hx0 hx hy0 hy
    refine ⟨l.a.nextCell x y, ?_, ?_⟩
    · exact Field.Next_inrange hl.1 hx0 (by rw [hl.2.2.1]; exact hx) hy0
        (by rw [hl.2.2.2.1]; exact hy)
    · show b1.Alive x y = _
      rw [Field.Alive_inrange hwf1 hx0 (by omega) hy0 (by omega), hc1 x y hx0 hx hy0 hy]

/-- C1 at `sampleLife`, with `staleField` as the other scratch field. -/
theorem C1_step_applies_next_witness :
    ∃ l1 l2 : Life, sampleLife.Step = .ok l1 ∧
      Life.Step { sampleLife with b := staleField } = .ok l2 ∧ l2.a = l1.a ∧
      ∀ x y : Int, 0 ≤ x → x < sampleLife.w → 0 ≤ y → y < sampleLife.h →
        ∃ v : Bool, sampleLife.a.Next x y = .ok v ∧ l1.a.Alive x y = .ok v :=
  C1_step_applies_next sampleLife (by decide) staleField (by decide) (by decide) (by decide)

/-! ## The rule of the game -/

theorem length_filter_eq_count_map {α : Type} (p : α → Bool) (l : List α) :
    (l.filter p).length = (l.map p).count true := by
  induction l with
  | nil => rfl
  | cons a l ih =>
    cases h : p a <;> simp [List.filter_cons, h, ih]

/-- The number of neighbour offsets at which `Alive` returns `true` is the
neighbour count over the stored cells. -/
theorem Field.liveNeighbours_eq {f : Field} (hf : f.WF) {x y : Int}
    (hx0 : 0 ≤ x) (hx : x < f.w) (hy0 : 0 ≤ y) (hy : y < f.h) :
    (neighbourOffsets.filter
        (fun p : Int × Int => decide (f.Alive (x + p.1) (y + p.2) = .ok true))).length
      = countLive (fun i j => f.cell ((x + i) % f.w) ((y + j) % f.h)) := by
  have hw := hf.2.2.1
  have hh := hf.2.2.2.1
  unfold countLive
  rw [← length_filter_eq_count_map]
  congr 1
  apply List.filter_congr
  intro p hp
  obtain ⟨h1, h2, h3, h4⟩ := neighbourOffsets_bounds hp
  have := Field.Alive_neighbour hf hx0 hx hy0 hy h1 h2 h3 h4
  rw [wrap64_of_range (by omega) (by omega), wrap64_of_range (by omega) (by omega)] at this
  simp only [this]
  generalize f.cell ((x + p.1) % f.w) ((y + p.2) % f.h) = c
  cases c <;> simp

/-- C2: at an in-range cell of a well-formed field, with `c` the number of
the eight neighbour offsets at which `Alive` returns `true`, `Next` returns
`c == 3 || (c == 2 && Alive(x, y))`: `false` for `c` in 0, 1, 4, 5, 6, 7, 8,
the current state for `c == 2`, `true` for `c == 3`; and any field whose
`Alive` agrees on the nine cells of the neighbourhood has the same `Next`. -/
theorem C2_next_rule (f : Field) (hf : f.WF) (x y : Int)
    (hx0 : 0 ≤ x) (hx : x < f.w) (hy0 : 0 ≤ y) (hy : y < f.h) :
    ∃ (self : Bool) (c : Nat),
      f.Alive x y = .ok self ∧
      c = (neighbourOffsets.filter
        (fun p : Int × Int => decide (f.Alive (x + p.1) (y + p.2) = .ok true))).length ∧
      c ≤ 8 ∧
      f.Next x y = .ok (decide (c = 3) || (decide (c = 2) && self)) ∧
      (c ∈ [0, 1, 4, 5, 6, 7, 8] → f.Next x y = .ok false) ∧
      (c = 2 → f.Next x y = f.Alive x y) ∧
      (c = 3 → f.Next x y = .ok true) ∧
      ∀ g : Field,
        (∀ i ∈ offsets, ∀ j ∈ offsets, g.Alive (x + i) (y + j) = f.Alive (x + i) (y + j)) →
        g.Next x y = f.Next x y := by
  have hw := hf.2.2.1
  have hh := hf.2.2.2.1
  have hself := Field.Alive_inrange hf hx0 hx hy0 hy
  have hnext := Field.Next_inrange hf hx0 hx hy0 hy
  have hc := Field.liveNeighbours_eq hf hx0 hx hy0 hy
  refine ⟨f.cell x y, _, hself, rfl, ?_, ?_, ?_, ?_, ?_, ?_⟩
  · exact (List.length_filter_le _ _).trans (by decide)
  · rw [hnext, hc]; rfl
  · intro hmem
    rw [hc] at hmem
    rw [hnext, Field.nextCell, rule]
    simp only [List.mem_cons, List.mem_singleton, List.not_mem_nil, or_false] at hmem
    rcases hmem with h | h | h | h | h | h | h <;> simp [h]
  · intro h2
    rw [hc] at h2
    rw [hnext, hself, Field.nextCell, rule, h2]
    simp
  · intro h3
    rw [hc] at h3
    rw [hnext, Field.nextCell, rule, h3]
    simp
  · intro g hg
    rw [hnext]
    apply Field.Next_of_alive
    · intro p hp
      obtain ⟨h1, h2, h3, h4⟩ := neighbourOffsets_bounds hp
      have hi : p.1 ∈ offsets := by
        have : p.1 = -1 ∨ p.1 = 0 ∨ p.1 = 1 := by omega
        rcases this with h | h | h <;> rw [h] <;> decide
      have hj : p.2 ∈ offsets := by
        have : p.2 = -1 ∨ p.2 = 0 ∨ p.2 = 1 := by omega
        rcases this with h | h | h <;> rw [h] <;> decide
      have := Field.Alive_neighbour hf hx0 hx hy0 hy h1 h2 h3 h4
      rw [wrap64_of_range (by omega) (by omega), wrap64_of_range (by omega) (by omega)]
        at this ⊢
      rw [hg p.1 hi p.2 hj, this]
    · have := hg 0 (by decide) 0 (by decide)
      simpa only [add_zero, hself] using this

/-- C2 at the centre of `sampleField`. -/
theorem C2_next_rule_witness :
    ∃ (self : Bool) (c : Nat),
      sampleField.Alive 1 1 = .ok self ∧
      c = (neighbourOffsets.filter
        (fun p : Int × Int => decide (sampleField.Alive (1 + p.1) (1 + p.2) = .ok true))).length ∧
      c ≤ 8 ∧
      sampleField.Next 1 1 = .ok (decide (c = 3) || (decide (c = 2) && self)) ∧
      (c ∈ [0, 1, 4, 5, 6, 7, 8] → sampleField.Next 1 1 = .ok false) ∧
      (c = 2 → sampleField.Next 1 1 = sampleField.Alive 1 1) ∧
      (c = 3 → sampleField.Next 1 1 = .ok true) ∧
      ∀ g : Field,
        (∀ i ∈ offsets, ∀ j ∈ offsets,
          g.Alive (1 + i) (1 + j) = sampleField.Alive (1 + i) (1 + j)) →
        g.Next 1 1 = sampleField.Next 1 1 :=
  C2_next_rule sampleField (by decide) 1 1 (by decide) (by decide) (by decide) (by decide)

/-! ## Wrap-around of `Alive` -/

/-- C3: toroidal periodicity fails below one period and at overflow.  On the
one-row field `pairField` (`w = 2`), `Alive(1, 0)` returns `false` while
`Alive(1 + (-2) * w, 0)` panics with an index out of range; on `tripleField`
(`w = 3`), `Alive(1, 0)` returns `true` while `Alive(1 + k * w, 0)` with
`1 + k * w` the largest `int` returns `false`. -/
theorem C3_alive_periodicity_fails :
    pairField.Alive 1 0 = .ok false ∧
    pairField.Alive (1 + (-2) * pairField.w) (0 + 0 * pairField.h)
      = .error .indexOutOfRange ∧
    tripleField.Alive 1 0 = .ok true ∧
    1 + 3074457345618258602 * tripleField.w = 9223372036854775807 ∧
    tripleField.Alive (1 + 3074457345618258602 * tripleField.w) (0 + 0 * tripleField.h)
      = .ok false := by
  decide

/-- C4: `Alive` is not total.  On `pairField` (`w = 2`, `h = 1`) the call
`Alive(-3, 0)` panics with an index out of range, although column
`((-3 mod 2) + 2) mod 2 = 1` of row `0` holds a stored cell. -/
theorem C4_alive_panics_below_period :
    pairField.WF ∧
    pairField.Alive (-3) 0 = .error .indexOutOfRange ∧
    (Int.tmod (Int.tmod (-3) pairField.w + pairField.w) pairField.w = 1 ∧
      ((-3) % pairField.w + pairField.w) % pairField.w = 1) ∧
    pairField.stored 1 0 = some false := by
  decide

/-- On a well-formed field every in-range position holds a stored cell. -/
theorem Field.stored_inrange {f : Field} (hf : f.WF) {x y : Int}
    (hx0 : 0 ≤ x) (hx : x < f.w) (hy0 : 0 ≤ y) (hy : y < f.h) :
    f.stored x y = some (f.cell x y) := by
  have hrow := hf.row_length hy0 hy
  have hlen := hf.2.2.2.2.1
  have h1 : y.toNat < f.s.length := by omega
  have h2 : x.toNat < (f.s.getD y.toNat []).length := by omega
  have h3 : ¬ (x < 0 ∨ y < 0) := by omega
  unfold Field.stored Field.cell
  rw [if_neg h3]
  rw [List.getD_eq_getElem _ _ h1] at h2 ⊢
  rw [List.getElem?_eq_getElem h1, Option.some_bind, List.getElem?_eq_getElem h2,
    List.getD_eq_getElem _ _ h2]

/-- C5: on a well-formed field, for `x >= -w` and `y >= -h` with `x + w` and
`y + h` inside the range of `int`, `Alive(x, y)` returns the cell stored at the
non-negative remainders of `x` modulo `w` and `y` modulo `h`; so `-1` reads
column `w - 1` (row `h - 1`), `w` reads column `0` (`h` row `0`), and an
in-range `(x, y)` reads the stored cell itself. -/
theorem C5_alive_wraps (f : Field) (hf : f.WF) (x y : Int)
    (hx0 : -f.w ≤ x) (hx : x + f.w ≤ 9223372036854775807)
    (hy0 : -f.h ≤ y) (hy : y + f.h ≤ 9223372036854775807) :
    (0 ≤ x % f.w ∧ x % f.w < f.w ∧ 0 ≤ y % f.h ∧ y % f.h < f.h ∧
      ∃ v, f.stored (x % f.w) (y % f.h) = some v ∧ f.Alive x y = .ok v) ∧
    (∃ v, f.stored (f.w - 1) (y % f.h) = some v ∧ f.Alive (-1) y = .ok v) ∧
    (∃ v, f.stored (x % f.w) (f.h - 1) = some v ∧ f.Alive x (-1) = .ok v) ∧
    (∃ v, f.stored 0 (y % f.h) = some v ∧ f.Alive f.w y = .ok v) ∧
    (∃ v, f.stored (x % f.w) 0 = some v ∧ f.Alive x f.h = .ok v) ∧
    (0 ≤ x → x < f.w → 0 ≤ y → y < f.h →
      ∃ v, f.stored x y = some v ∧ f.Alive x y = .ok v) := by
  have hw0 := hf.1
  have hh0 := hf.2.1
  have hw := hf.2.2.1
  have hh := hf.2.2.2.1
  have hx1 : 0 ≤ x % f.w := Int.emod_nonneg _ (by omega)
  have hx2 : x % f.w < f.w := Int.emod_lt_of_pos _ hw0
  have hy1 : 0 ≤ y % f.h := Int.emod_nonneg _ (by omega)
  have hy2 : y % f.h < f.h := Int.emod_lt_of_pos _ hh0
  have hm1 : ∀ n : Int, 0 < n → (-1 : Int) % n = n - 1 := by
    intro n hn
    have h1 : (-1 : Int) % n = (-1 + n) % n := Int.add_emod_self.symm
    have h2 : (-1 + n) % n = -1 + n := Int.emod_eq_of_lt (by omega) (by omega)
    omega
  have hm1w := hm1 f.w hw0
  have hm1h := hm1 f.h hh0
  refine ⟨⟨hx1, hx2, hy1, hy2, _, Field.stored_inrange hf hx1 hx2 hy1 hy2,
      Field.Alive_wrap hf hx0 hx hy0 hy⟩, ?_, ?_, ?_, ?_, ?_⟩
  · refine ⟨_, Field.stored_inrange hf (by omega) (by omega) hy1 hy2, ?_⟩
    rw [Field.Alive_wrap hf (by omega) (by omega) hy0 hy, hm1w]
  · refine ⟨_, Field.stored_inrange hf hx1 hx2 (by omega) (by omega), ?_⟩
    rw [Field.Alive_wrap hf hx0 hx (by omega) (by omega), hm1h]
  · refine ⟨_, Field.stored_inrange hf (le_refl 0) hw0 hy1 hy2, ?_⟩
    rw [Field.Alive_wrap hf (by omega) (by omega) hy0 hy, Int.emod_self]
  · refine ⟨_, Field.stored_inrange hf hx1 hx2 (le_refl 0) hh0, ?_⟩
    rw [Field.Alive_wrap hf hx0 hx (by omega) (by omega), Int.emod_self]
  · intro h1 h2 h3 h4
    exact ⟨_, Field.stored_inrange hf h1 h2 h3 h4, Field.Alive_inrange hf h1 h2 h3 h4⟩

/-- C5 at `sampleField`, reading one column to the left of the grid and one
row below it. -/
theorem C5_alive_wraps_witness :
    (0 ≤ (-1 : Int) % sampleField.w ∧ (-1 : Int) % sampleField.w < sampleField.w ∧
      0 ≤ (3 : Int) % sampleField.h ∧ (3 : Int) % sampleField.h < sampleField.h ∧
      ∃ v, sampleField.stored ((-1) % sampleField.w) (3 % sampleField.h) = some v ∧
        sampleField.Alive (-1) 3 = .ok v) ∧
    (∃ v, sampleField.stored (sampleField.w - 1) (3 % sampleField.h) = some v ∧
      sampleField.Alive (-1) 3 = .ok v) ∧
    (∃ v, sampleField.stored ((-1) % sampleField.w) (sampleField.h - 1) = some v ∧
      sampleField.Alive (-1) (-1) = .ok v) ∧
    (∃ v, sampleField.stored 0 (3 % sampleField.h) = some v ∧
      sampleField.Alive sampleField.w 3 = .ok v) ∧
    (∃ v, sampleField.stored ((-1) % sampleField.w) 0 = some v ∧
      sampleField.Alive (-1) sampleField.h = .ok v) ∧
    ((0 : Int) ≤ -1 → (-1 : Int) < sampleField.w → (0 : Int) ≤ 3 → (3 : Int) < sampleField.h →
      ∃ v, sampleField.stored (-1) 3 = some v ∧ sampleField.Alive (-1) 3 = .ok v) :=
  C5_alive_wraps sampleField (by decide) (-1) 3 (by decide) (by decide) (by decide) (by decide)

/-! ## Writing, clearing and allocating -/

/-- C6: on a well-formed field, `Set(x, y, b)` at an in-range cell returns a
field of the same `w` and `h` in which `Alive(x, y)` is `b` and every other
in-range cell reads as before; at a cell outside the range, `Set` panics with
an index out of range instead of wrapping. -/
theorem C6_set_frame (f : Field) (hf : f.WF) (x y : Int) (b : Bool)
    (hx0 : 0 ≤ x) (hx : x < f.w) (hy0 : 0 ≤ y) (hy : y < f.h) :
    (∃ g, f.Set x y b = .ok g ∧ g.w = f.w ∧ g.h = f.h ∧ g.WF ∧
      g.Alive x y = .ok b ∧
      ∀ u v : Int, 0 ≤ u → u < f.w → 0 ≤ v → v < f.h → (u, v) ≠ (x, y) →
        g.Alive u v = f.Alive u v) ∧
    (∀ u v : Int, u < 0 ∨ f.w ≤ u ∨ v < 0 ∨ f.h ≤ v →
      f.Set u v b = .error .indexOutOfRange) := by
  refine ⟨⟨_, Field.Set_inrange hf b hx0 hx hy0 hy, rfl, rfl, setCell_wf hf x y b, ?_, ?_⟩, ?_⟩
  · rw [Field.Alive_inrange (setCell_wf hf x y b) hx0 hx hy0 hy,
      cell_setCell f hf b hx0 hx hy0 hy hx0 hy0]
    simp
  · intro u v hu0 hu hv0 hv hne
    rw [Field.Alive_inrange (setCell_wf hf x y b) hu0 hu hv0 hv,
      Field.Alive_inrange hf hu0 hu hv0 hv, cell_setCell f hf b hx0 hx hy0 hy hu0 hv0]
    have : ¬ (u = x ∧ v = y) := by
      rintro ⟨h1, h2⟩
      exact hne (by rw [h1, h2])
    rw [if_neg this]
  · intro u v h
    exact Field.Set_outside f hf u v b h

/-- C6 at the centre of `sampleField`. -/
theorem C6_set_frame_witness :
    (∃ g, sampleField.Set 1 1 false = .ok g ∧ g.w = sampleField.w ∧ g.h = sampleField.h ∧
      g.WF ∧ g.Alive 1 1 = .ok false ∧
      ∀ u v : Int, 0 ≤ u → u < sampleField.w → 0 ≤ v → v < sampleField.h → (u, v) ≠ (1, 1) →
        g.Alive u v = sampleField.Alive u v) ∧
    (∀ u v : Int, u < 0 ∨ sampleField.w ≤ u ∨ v < 0 ∨ sampleField.h ≤ v →
      sampleField.Set u v false = .error .indexOutOfRange) :=
  C6_set_frame sampleField (by decide) 1 1 false (by decide) (by decide) (by decide)
    (by decide)

/-- The allocation loop shared by `Clear` and `NewField`: `h` rows of `w`
dead cells. -/
theorem make_ok {α : Type} (size n : Int) (zero : α) (hn : 0 ≤ n)
    (hfit : n * size ≤ maxAlloc) :
    make size n zero = .ok (List.replicate n.toNat zero) := by
  unfold make
  rw [if_neg (by omega)]

theorem make_panics {α : Type} (size n : Int) (zero : α)
    (h : n < 0 ∨ maxAlloc < n * size) :
    make size n zero = .error .makeLenOutOfRange := by
  unfold make
  rw [if_pos h]

/-- A counted loop whose first pass panics panics. -/
theorem forLoop_error_first {σ : Type} (n : Int) (body : Int → σ → Result σ) (init : σ)
    (e : Panic) (hn : 0 < n) (h : body 0 init = .error e) :
    forLoop n body init = .error e := by
  unfold forLoop
  obtain ⟨k, hk⟩ : ∃ k, n.toNat = k + 1 := ⟨n.toNat - 1, by omega⟩
  rw [hk, List.range_succ_eq_map, List.foldlM_cons]
  simp only [Nat.cast_zero, h, error_bind]

theorem clearLoop_spec (w h : Int) (hw : 0 ≤ w) (hh : 0 ≤ h) (ha : withinAlloc w h) :
    (make sliceSize h ([] : List Bool) >>= fun s =>
      forLoop (s.length : Int) (fun i s => do
        let row ← make boolSize w false
        assign s i row) s)
      = .ok (List.replicate h.toNat (List.replicate w.toNat false)) := by
  have hm : make sliceSize h ([] : List Bool) = .ok (List.replicate h.toNat []) :=
    make_ok sliceSize h [] hh ha.2
  have hr : make boolSize w false = .ok (List.replicate w.toNat false) :=
    make_ok boolSize w false hw ha.1
  rw [hm, ok_bind]
  obtain ⟨s, hloop, hlen, hrows⟩ := forLoop_inv
    ((List.replicate h.toNat ([] : List Bool)).length : Int)
    (fun i s => do
        let row ← make boolSize w false
        assign s i row) (List.replicate h.toNat ([] : List Bool))
    (fun k s => s.length = h.toNat ∧
      ∀ i : Nat, i < k → s[i]? = some (List.replicate w.toNat false))
    ⟨by simp, by intro i hi; omega⟩
    (by
      intro k s hk ⟨hlen, hrows⟩
      simp only [List.length_replicate, Nat.cast_lt] at hk
      refine ⟨s.set k (List.replicate w.toNat false), ?_, ?_, ?_⟩
      · have : (0 : Int) ≤ (k : Int) ∧ (k : Int).toNat < s.length := by
          constructor
          · exact Int.ofNat_nonneg k
          · simp only [Int.toNat_ofNat]; omega
        simp only [hr, ok_bind, assign]
        rw [if_pos this, Int.toNat_ofNat]
      · simp [hlen]
      · intro i hi
        rw [List.getElem?_set]
        by_cases h1 : k = i
        · simp [h1]; omega
        · rw [if_neg h1]
          exact hrows i (by omega))
  rw [hloop]
  congr 1
  rw [List.eq_replicate_iff]
  refine ⟨hlen, ?_⟩
  intro r hr'
  obtain ⟨i, hi, rfl⟩ := List.getElem_of_mem hr'
  have := hrows i (by simp only [List.length_replicate, Int.toNat_ofNat]; omega)
  rw [List.getElem?_eq_getElem hi] at this
  exact Option.some.inj this

theorem cell_replicate (w h x y : Int) (n m : Nat) :
    Field.cell { s := List.replicate n (List.replicate m false), w := w, h := h } x y
      = false := by
  simp only [Field.cell, List.getD_eq_getElem?_getD]
  by_cases h1 : y.toNat < n
  · by_cases h2 : x.toNat < m
    · simp [List.getElem?_replicate, h1, h2]
    · simp [List.getElem?_replicate, h1, h2]
  · simp [List.getElem?_replicate, h1]

/-- The allocation loop panics when a positive dimension is beyond the limit
of `make`. -/
theorem clearLoop_panics (w h : Int) (hh : 0 < h) (ha : ¬ withinAlloc w h) :
    (make sliceSize h ([] : List Bool) >>= fun s =>
      forLoop (s.length : Int) (fun i s => do
        let row ← make boolSize w false
        assign s i row) s)
      = .error .makeLenOutOfRange := by
  by_cases hrows : h * sliceSize ≤ maxAlloc
  · have hcells : maxAlloc < w * boolSize := by
      by_contra hc
      exact ha ⟨not_lt.mp hc, hrows⟩
    rw [make_ok sliceSize h [] (le_of_lt hh) hrows, ok_bind]
    apply forLoop_error_first
    · simp only [List.length_replicate]
      omega
    · rw [make_panics boolSize w false (Or.inr hcells)]
      rfl
  · rw [make_panics sliceSize h [] (Or.inr (not_le.mp hrows))]
    rfl

theorem Field.Clear_spec (f : Field) (hw : 0 ≤ f.w) (hh : 0 ≤ f.h)
    (ha : withinAlloc f.w f.h) :
    f.Clear = .ok { f with s := List.replicate f.h.toNat (List.replicate f.w.toNat false) } := by
  have := clearLoop_spec f.w f.h hw hh ha
  unfold Field.Clear
  rw [← bind_assoc, this]
  rfl

theorem Field.Clear_panics (f : Field) (hh : 0 < f.h) (ha : ¬ withinAlloc f.w f.h) :
    f.Clear = .error .makeLenOutOfRange := by
  have := clearLoop_panics f.w f.h hh ha
  unfold Field.Clear
  rw [← bind_assoc, this]
  rfl

theorem LifeGo.NewField_spec (w h : Int) (hw : 0 ≤ w) (hh : 0 ≤ h) (ha : withinAlloc w h) :
    LifeGo.NewField w h
      = .ok { s := List.replicate h.toNat (List.replicate w.toNat false), w := w, h := h } := by
  have := clearLoop_spec w h hw hh ha
  unfold LifeGo.NewField
  rw [← bind_assoc, this]
  rfl

theorem LifeGo.NewField_refused (w h : Int) (hh : 0 < h) (ha : ¬ withinAlloc w h) :
    LifeGo.NewField w h = .error .makeLenOutOfRange := by
  have := clearLoop_panics w h hh ha
  unfold LifeGo.NewField
  rw [← bind_assoc, this]
  rfl

theorem withinAlloc_bounds {w h : Int} (ha : withinAlloc w h) :
    w < 4611686018427387904 ∧ h < 4611686018427387904 := by
  simp only [withinAlloc, maxAlloc, boolSize, sliceSize] at ha
  omega

theorem replicate_wf (w h : Int) (hw0 : 0 < w) (hh0 : 0 < h)
    (hw : w < 4611686018427387904) (hh : h < 4611686018427387904) :
    Field.WF { s := List.replicate h.toNat (List.replicate w.toNat false), w := w, h := h } := by
  refine ⟨hw0, hh0, hw, hh, by simp, ?_⟩
  intro r hr
  rw [(List.mem_replicate.mp hr).2, List.length_replicate]

/-- C7, as stated, fails: with `w = 2^50` and `h = 1`, both positive,
`NewField(w, h)` of either source file panics in `make`, and so does `Clear`
on a field of these dimensions. -/
theorem C7_newField_panics_beyond_limit :
    (0 : Int) < 1125899906842624 ∧ (0 : Int) < 1 ∧
    NewField 1125899906842624 1 = .error .makeLenOutOfRange ∧
    LifeGo.NewField 1125899906842624 1 = .error .makeLenOutOfRange ∧
    Field.Clear { s := [[true]], w := 1125899906842624, h := 1 }
      = .error .makeLenOutOfRange := by
  decide

/-- C7, amended: for `0 < w` and `0 < h` within the limit of `make` (a row of
`w` cells and a slice of `h` rows of at most `maxAlloc` bytes each),
`NewField(w, h)` of either source file returns a field of width `w` and height
`h`, `h` rows of exactly `w` cells, on which `Alive` is `false` at every cell,
and `Clear` on any field of these dimensions, whatever its grid held, returns
a field of the same `w` and `h` on which `Alive` is `false` at every cell;
beyond the limit `NewField` and `Clear` panic in `make`. -/
theorem C7_newField_clear (w h : Int) (hw0 : 0 < w) (hh0 : 0 < h) :
    (withinAlloc w h →
      (∃ f, NewField w h = .ok f ∧ LifeGo.NewField w h = .ok f ∧
        f.w = w ∧ f.h = h ∧ f.s.length = h.toNat ∧ (∀ r ∈ f.s, r.length = w.toNat) ∧
        ∀ x y : Int, 0 ≤ x → x < w → 0 ≤ y → y < h → f.Alive x y = .ok false) ∧
      (∀ g : Field, g.w = w → g.h = h →
        ∃ g', g.Clear = .ok g' ∧ g'.w = w ∧ g'.h = h ∧
          g'.s.length = h.toNat ∧ (∀ r ∈ g'.s, r.length = w.toNat) ∧
          ∀ x y : Int, 0 ≤ x → x < w → 0 ≤ y → y < h → g'.Alive x y = .ok false)) ∧
    (¬ withinAlloc w h →
      NewField w h = .error .makeLenOutOfRange ∧
      LifeGo.NewField w h = .error .makeLenOutOfRange ∧
      ∀ g : Field, g.w = w → g.h = h → g.Clear = .error .makeLenOutOfRange) := by
  constructor
  · intro ha
    obtain ⟨hw, hh⟩ := withinAlloc_bounds ha
    have hwf := replicate_wf w h hw0 hh0 hw hh
    have hdead : ∀ x y : Int, 0 ≤ x → x < w → 0 ≤ y → y < h →
        Field.Alive
          { s := List.replicate h.toNat (List.replicate w.toNat false), w := w, h := h }
          x y = .ok false := by
      intro x y hx0 hx hy0 hy
      rw [Field.Alive_inrange hwf hx0 hx hy0 hy, cell_replicate]
    constructor
    · refine ⟨{ s := List.replicate h.toNat (List.replicate w.toNat false), w := w, h := h },
        ?_, ?_, rfl, rfl, hwf.2.2.2.2.1, hwf.2.2.2.2.2, hdead⟩
      · exact Field.Clear_spec { s := [], w := w, h := h } (le_of_lt hw0) (le_of_lt hh0) ha
      · exact LifeGo.NewField_spec w h (le_of_lt hw0) (le_of_lt hh0) ha
    · intro g hgw hgh
      refine ⟨{ g with s := List.replicate g.h.toNat (List.replicate g.w.toNat false) },
        Field.Clear_spec g (by omega) (by omega) (by rw [hgw, hgh]; exact ha), hgw, hgh, ?_⟩
      cases g
      simp only at hgw hgh
      subst hgw hgh
      exact ⟨hwf.2.2.2.2.1, hwf.2.2.2.2.2, hdead⟩
  · intro ha
    refine ⟨Field.Clear_panics { s := [], w := w, h := h } hh0 ha,
      LifeGo.NewField_refused w h hh0 ha, ?_⟩
    intro g hgw hgh
    exact Field.Clear_panics g (by omega) (by rw [hgw, hgh]; exact ha)

/-- C7, amended, at width 3 and height 2. -/
theorem C7_newField_clear_witness :
    (withinAlloc 3 2 →
      (∃ f, NewField 3 2 = .ok f ∧ LifeGo.NewField 3 2 = .ok f ∧
        f.w = 3 ∧ f.h = 2 ∧ f.s.length = (2 : Int).toNat ∧
        (∀ r ∈ f.s, r.length = (3 : Int).toNat) ∧
        ∀ x y : Int, 0 ≤ x → x < 3 → 0 ≤ y → y < 2 → f.Alive x y = .ok false) ∧
      (∀ g : Field, g.w = 3 → g.h = 2 →
        ∃ g', g.Clear = .ok g' ∧ g'.w = 3 ∧ g'.h = 2 ∧
          g'.s.length = (2 : Int).toNat ∧ (∀ r ∈ g'.s, r.length = (3 : Int).toNat) ∧
          ∀ x y : Int, 0 ≤ x → x < 3 → 0 ≤ y → y < 2 → g'.Alive x y = .ok false)) ∧
    (¬ withinAlloc 3 2 →
      NewField 3 2 = .error .makeLenOutOfRange ∧
      LifeGo.NewField 3 2 = .error .makeLenOutOfRange ∧
      ∀ g : Field, g.w = 3 → g.h = 2 → g.Clear = .error .makeLenOutOfRange) :=
  C7_newField_clear 3 2 (by decide) (by decide)

/-! ## Randomizing -/

/-- `Field.Randomize` on a field of positive dimensions, with draws inside the
grid: the call returns, and a cell is alive exactly when it was drawn. -/
theorem Field.Randomize_spec (draws : Nat → Int × Int) (f : Field)
    (hw0 : 0 < f.w) (hh0 : 0 < f.h)
    (hw : f.w < 4611686018427387904) (hh : f.h < 4611686018427387904)
    (hwh : f.w * f.h ≤ 9223372036854775807)
    (hd : ∀ i : Nat, (i : Int) < f.w * f.h / 4 →
      0 ≤ (draws i).1 ∧ (draws i).1 < f.w ∧ 0 ≤ (draws i).2 ∧ (draws i).2 < f.h)
    (ha : withinAlloc f.w f.h) :
    ∃ g, f.Randomize draws = .ok g ∧ g.WF ∧ g.w = f.w ∧ g.h = f.h ∧
      ∀ x y : Int, 0 ≤ x → 0 ≤ y →
        g.cell x y = decide ((x, y) ∈ firstDraws draws (f.w * f.h / 4).toNat) := by
  have hprod : 0 ≤ f.w * f.h := Int.mul_nonneg (le_of_lt hw0) (le_of_lt hh0)
  have hn : Int.tdiv (wrap64 (f.w * f.h)) 4 = f.w * f.h / 4 := by
    rw [wrap64_of_range (by omega) hwh, Int.tdiv_eq_ediv hprod (by decide)]
  obtain ⟨g, hloop, hwf, hgw, hgh, hcell⟩ := forLoop_inv (f.w * f.h / 4)
    (fun i (g : Field) => do
      let x ← randIntn (draws i.toNat).1 g.w
      let y ← randIntn (draws i.toNat).2 g.h
      g.Set x y true)
    { f with s := List.replicate f.h.toNat (List.replicate f.w.toNat false) }
    (fun k g => g.WF ∧ g.w = f.w ∧ g.h = f.h ∧
      ∀ x y : Int, 0 ≤ x → 0 ≤ y → g.cell x y = decide ((x, y) ∈ firstDraws draws k))
    ⟨replicate_wf f.w f.h hw0 hh0 hw hh, rfl, rfl, by
      intro x y _ _
      rw [cell_replicate]
      simp [firstDraws]⟩
    (by
      intro k g hk ⟨hwf, hgw, hgh, hcell⟩
      obtain ⟨h1, h2, h3, h4⟩ := hd k hk
      refine ⟨{ g with s := setCell g.s (draws k).1 (draws k).2 true }, ?_,
        setCell_wf hwf _ _ _, hgw, hgh, ?_⟩
      · have hgw0 : ¬ g.w ≤ 0 := by omega
        have hgh0 : ¬ g.h ≤ 0 := by omega
        simp only [randIntn, Int.toNat_ofNat, if_neg hgw0, if_neg hgh0, ok_bind]
        exact Field.Set_inrange hwf true h1 (by omega) h3 (by omega)
      · intro x y hx hy
        rw [cell_setCell g hwf true h1 (by omega) h3 (by omega) hx hy, hcell x y hx hy]
        simp only [firstDraws, List.range_succ, List.map_append, List.map_cons, List.map_nil,
          List.mem_append, List.mem_singleton]
        by_cases hxy : x = (draws k).1 ∧ y = (draws k).2
        · have : (x, y) = draws k := by rw [hxy.1, hxy.2]
          simp [hxy, this]
        · have : (x, y) ≠ draws k := by
            intro h
            apply hxy
            rw [← h]
            exact ⟨rfl, rfl⟩
          simp [hxy, this])
  refine ⟨g, ?_, hwf, hgw, hgh, hcell⟩
  unfold Field.Randomize
  rw [Field.Clear_spec f (le_of_lt hw0) (le_of_lt hh0) ha, ok_bind]
  simp only [hn]
  exact hloop

/-- `Field.Randomize` panics in `Clear` when the dimensions are beyond the
limit of `make`. -/
theorem Field.Randomize_panics (draws : Nat → Int × Int) (f : Field) (hh0 : 0 < f.h)
    (ha : ¬ withinAlloc f.w f.h) :
    f.Randomize draws = .error .makeLenOutOfRange := by
  unfold Field.Randomize
  rw [Field.Clear_panics f hh0 ha]
  rfl

theorem Life.Randomize_refused (draws : Nat → Int × Int) (l : Life) (hh0 : 0 < l.a.h)
    (ha : ¬ withinAlloc l.a.w l.a.h) :
    l.Randomize draws = .error .makeLenOutOfRange := by
  unfold Life.Randomize
  rw [Field.Randomize_panics draws l.a hh0 ha]
  rfl


theorem mem_gridPositions (w h : Int) (p : Int × Int) :
    p ∈ gridPositions w h ↔ 0 ≤ p.1 ∧ p.1 < w ∧ 0 ≤ p.2 ∧ p.2 < h := by
  unfold gridPositions
  rw [List.mem_map]
  constructor
  · rintro ⟨⟨a, b⟩, hab, rfl⟩
    rw [List.pair_mem_product, List.mem_range, List.mem_range] at hab
    simp only
    omega
  · rintro ⟨h1, h2, h3, h4⟩
    refine ⟨(p.1.toNat, p.2.toNat), ?_, ?_⟩
    · rw [List.pair_mem_product, List.mem_range, List.mem_range]
      omega
    · simp only [Int.toNat_of_nonneg h1, Int.toNat_of_nonneg h3]

theorem nodup_gridPositions (w h : Int) : (gridPositions w h).Nodup := by
  unfold gridPositions
  apply List.Nodup.map
  · rintro ⟨a, b⟩ ⟨c, d⟩ hcd
    simp only [Prod.mk.injEq, Nat.cast_inj] at hcd
    rw [hcd.1, hcd.2]
  · exact List.Nodup.product (List.nodup_range _) (List.nodup_range _)

theorem length_dedup_eq_iff {α : Type} [DecidableEq α] (l : List α) :
    l.dedup.length = l.length ↔ l.Nodup := by
  constructor
  · intro h
    exact List.dedup_eq_self.mp ((List.dedup_sublist l).eq_of_length h)
  · intro h
    rw [List.dedup_eq_self.mpr h]

/-- C8: with the random source a sequence of in-range coordinates, on a `Life`
whose current field has positive dimensions (of a grid that fits in memory),
`Life.Randomize` returns a state with generation 1, the same `paused`, the same
scratch field, and a current field of the same dimensions whose live cells are
exactly the first `floor(w * h / 4)` drawn coordinates; their number is at
most `floor(w * h / 4)`, with equality exactly when no two of those draws
coincide.  This is for dimensions within the limit of `make`, as every field
the program allocates has; on a state whose current field is declared larger,
`Clear` panics in `make`. -/
theorem C8_randomize (draws : Nat → Int × Int) (l : Life)
    (hw0 : 0 < l.a.w) (hh0 : 0 < l.a.h)
    (hw : l.a.w < 4611686018427387904) (hh : l.a.h < 4611686018427387904)
    (hwh : l.a.w * l.a.h ≤ 9223372036854775807)
    (hd : ∀ i : Nat, (i : Int) < l.a.w * l.a.h / 4 →
      0 ≤ (draws i).1 ∧ (draws i).1 < l.a.w ∧ 0 ≤ (draws i).2 ∧ (draws i).2 < l.a.h) :
    (withinAlloc l.a.w l.a.h →
      ∃ l1, l.Randomize draws = .ok l1 ∧
        l1.generation = 1 ∧ l1.paused = l.paused ∧ l1.b = l.b ∧ l1.w = l.w ∧ l1.h = l.h ∧
        l1.a.w = l.a.w ∧ l1.a.h = l.a.h ∧
        (∀ x y : Int, 0 ≤ x → x < l.a.w → 0 ≤ y → y < l.a.h →
          l1.a.Alive x y
            = .ok (decide ((x, y) ∈ firstDraws draws (l.a.w * l.a.h / 4).toNat))) ∧
        (∀ p : Int × Int, p ∈ l1.a.liveCells ↔
          p ∈ firstDraws draws (l.a.w * l.a.h / 4).toNat) ∧
        l1.a.liveCells.length ≤ (l.a.w * l.a.h / 4).toNat ∧
        (l1.a.liveCells.length = (l.a.w * l.a.h / 4).toNat ↔
          (firstDraws draws (l.a.w * l.a.h / 4).toNat).Nodup)) ∧
    (¬ withinAlloc l.a.w l.a.h → l.Randomize draws = .error .makeLenOutOfRange) := by
  refine ⟨fun ha => ?_, fun ha => Life.Randomize_refused draws l hh0 ha⟩
  obtain ⟨g, hg, hwf, hgw, hgh, hcell⟩ :=
    Field.Randomize_spec draws l.a hw0 hh0 hw hh hwh hd ha
  have halive : ∀ x y : Int, 0 ≤ x → x < l.a.w → 0 ≤ y → y < l.a.h →
      g.Alive x y = .ok (decide ((x, y) ∈ firstDraws draws (l.a.w * l.a.h / 4).toNat)) := by
    intro x y hx0 hx hy0 hy
    rw [Field.Alive_inrange hwf hx0 (by omega) hy0 (by omega), hcell x y hx0 hy0]
  have hmem : ∀ p : Int × Int, p ∈ g.liveCells ↔
      p ∈ firstDraws draws (l.a.w * l.a.h / 4).toNat := by
    intro p
    unfold Field.liveCells
    rw [List.mem_filter, mem_gridPositions, hgw, hgh]
    constructor
    · rintro ⟨⟨h1, h2, h3, h4⟩, h5⟩
      rw [halive p.1 p.2 h1 h2 h3 h4] at h5
      simpa using h5
    · intro hp
      have hp' := hp
      simp only [firstDraws, List.mem_map, List.mem_range] at hp'
      obtain ⟨i, hi, rfl⟩ := hp'
      obtain ⟨h1, h2, h3, h4⟩ := hd i (by omega)
      refine ⟨⟨h1, h2, h3, h4⟩, ?_⟩
      rw [halive _ _ h1 h2 h3 h4]
      simpa using hp
  have hperm : g.liveCells.Perm (firstDraws draws (l.a.w * l.a.h / 4).toNat).dedup := by
    have hnd : g.liveCells.Nodup := (nodup_gridPositions _ _).filter _
    rw [List.perm_ext_iff_of_nodup hnd (List.nodup_dedup _)]
    intro p
    rw [hmem p, List.mem_dedup]
  have hlen : (firstDraws draws (l.a.w * l.a.h / 4).toNat).length
      = (l.a.w * l.a.h / 4).toNat := by
    simp [firstDraws]
  refine ⟨{ l with a := g, generation := 1 }, ?_, rfl, rfl, rfl, rfl, rfl, hgw, hgh, halive,
    hmem, ?_, ?_⟩
  · unfold Life.Randomize
    rw [hg]
    rfl
  · show g.liveCells.length ≤ _
    rw [hperm.length_eq]
    exact le_of_le_of_eq (List.dedup_sublist _).length_le hlen
  · show g.liveCells.length = _ ↔ _
    rw [hperm.length_eq, ← length_dedup_eq_iff, hlen]

/-- C8 at `sampleLife` with `sampleDraws`. -/
theorem C8_randomize_witness :
    (withinAlloc sampleLife.a.w sampleLife.a.h →
      ∃ l1, sampleLife.Randomize sampleDraws = .ok l1 ∧
        l1.generation = 1 ∧ l1.paused = sampleLife.paused ∧ l1.b = sampleLife.b ∧
        l1.w = sampleLife.w ∧ l1.h = sampleLife.h ∧
        l1.a.w = sampleLife.a.w ∧ l1.a.h = sampleLife.a.h ∧
        (∀ x y : Int, 0 ≤ x → x < sampleLife.a.w → 0 ≤ y → y < sampleLife.a.h →
          l1.a.Alive x y = .ok (decide
            ((x, y) ∈ firstDraws sampleDraws (sampleLife.a.w * sampleLife.a.h / 4).toNat))) ∧
        (∀ p : Int × Int, p ∈ l1.a.liveCells ↔
          p ∈ firstDraws sampleDraws (sampleLife.a.w * sampleLife.a.h / 4).toNat) ∧
        l1.a.liveCells.length ≤ (sampleLife.a.w * sampleLife.a.h / 4).toNat ∧
        (l1.a.liveCells.length = (sampleLife.a.w * sampleLife.a.h / 4).toNat ↔
          (firstDraws sampleDraws (sampleLife.a.w * sampleLife.a.h / 4).toNat).Nodup)) ∧
    (¬ withinAlloc sampleLife.a.w sampleLife.a.h →
      sampleLife.Randomize sampleDraws = .error .makeLenOutOfRange) :=
  C8_randomize sampleDraws sampleLife (by decide) (by decide) (by decide) (by decide)
    (by decide) (by
      intro i _
      unfold sampleDraws
      by_cases h : i = 0 <;> simp [h, sampleLife, sampleField])

/-! ## Still life and oscillator -/

theorem emod_pred {w x : Int} (hx0 : 0 ≤ x) (hx : x < w) :
    (x + -1) % w = w - 1 ∧ x = 0 ∨ (x + -1) % w = x - 1 ∧ 1 ≤ x := by
  by_cases h : x = 0
  · left
    subst h
    have h1 : ((0 : Int) + -1) % w = (-1 + w) % w := by
      rw [Int.add_emod_self]; rfl
    have h2 : (-1 + w) % w = -1 + w := Int.emod_eq_of_lt (by omega) (by omega)
    exact ⟨by omega, rfl⟩
  · right
    have h2 : (x + -1) % w = x + -1 := Int.emod_eq_of_lt (by omega) (by omega)
    exact ⟨by omega, by omega⟩

theorem emod_succ {w x : Int} (hx0 : 0 ≤ x) (hx : x < w) :
    (x + 1) % w = 0 ∧ x = w - 1 ∨ (x + 1) % w = x + 1 ∧ x + 1 < w := by
  by_cases h : x = w - 1
  · left
    have h1 : (x + 1) % w = 0 := by
      have : x + 1 = w := by omega
      rw [this, Int.emod_self]
    exact ⟨h1, h⟩
  · right
    exact ⟨Int.emod_eq_of_lt (by omega) (by omega), by omega⟩

theorem emod_zero_add {w x : Int} (hx0 : 0 ≤ x) (hx : x < w) : (x + 0) % w = x := by
  rw [Int.add_zero]
  exact Int.emod_eq_of_lt hx0 hx

theorem decide_cases (p : Prop) [Decidable p] :
    (p ∧ decide p = true) ∨ (¬ p ∧ decide p = false) := by
  by_cases h : p
  · exact Or.inl ⟨h, decide_eq_true h⟩
  · exact Or.inr ⟨h, decide_eq_false h⟩

/-- Along one axis of a grid of size at least 4, membership of the three wrapped
neighbours of `x` in a block `{c, c + 1}`. -/
theorem block_axis {w c x : Int} (hw : 4 ≤ w) (hc0 : 0 ≤ c) (hc : c ≤ w - 2)
    (hx0 : 0 ≤ x) (hx : x < w) :
    (decide ((x + -1) % w = c ∨ (x + -1) % w = c + 1),
      decide (x = c ∨ x = c + 1),
      decide ((x + 1) % w = c ∨ (x + 1) % w = c + 1))
    ∈ [(false, false, false), (false, false, true), (false, true, true),
        (true, true, false), (true, false, false)] := by
  have hm := emod_pred hx0 hx
  have hp := emod_succ hx0 hx
  rcases decide_cases ((x + -1) % w = c ∨ (x + -1) % w = c + 1) with ⟨h1, e1⟩ | ⟨h1, e1⟩ <;>
  rcases decide_cases (x = c ∨ x = c + 1) with ⟨h2, e2⟩ | ⟨h2, e2⟩ <;>
  rcases decide_cases ((x + 1) % w = c ∨ (x + 1) % w = c + 1) with ⟨h3, e3⟩ | ⟨h3, e3⟩ <;>
  rw [e1, e2, e3] <;>
  first
  | decide
  | (exfalso; omega)


/-- Along one axis of a grid of size at least 5, membership of the three wrapped
neighbours of `x` in the line `{c - 1, c, c + 1}`: all three belong exactly
when `x = c`. -/
theorem line_axis {w c x : Int} (hw : 5 ≤ w) (hc0 : 1 ≤ c) (hc : c ≤ w - 2)
    (hx0 : 0 ≤ x) (hx : x < w) :
    (decide ((x + -1) % w = c - 1 ∨ (x + -1) % w = c ∨ (x + -1) % w = c + 1),
      decide (x = c - 1 ∨ x = c ∨ x = c + 1),
      decide ((x + 1) % w = c - 1 ∨ (x + 1) % w = c ∨ (x + 1) % w = c + 1),
      decide (x = c))
    ∈ [(false, false, false, false), (false, false, true, false), (false, true, true, false),
        (true, true, true, true), (true, true, false, false), (true, false, false, false)] := by
  have hm := emod_pred hx0 hx
  have hp := emod_succ hx0 hx
  rcases decide_cases ((x + -1) % w = c - 1 ∨ (x + -1) % w = c ∨ (x + -1) % w = c + 1)
    with ⟨h1, e1⟩ | ⟨h1, e1⟩ <;>
  rcases decide_cases (x = c - 1 ∨ x = c ∨ x = c + 1) with ⟨h2, e2⟩ | ⟨h2, e2⟩ <;>
  rcases decide_cases ((x + 1) % w = c - 1 ∨ (x + 1) % w = c ∨ (x + 1) % w = c + 1)
    with ⟨h3, e3⟩ | ⟨h3, e3⟩ <;>
  rcases decide_cases (x = c) with ⟨h4, e4⟩ | ⟨h4, e4⟩ <;>
  rw [e1, e2, e3, e4] <;>
  first
  | decide
  | (exfalso; omega)

/-- Along one axis of a grid of size at least 5, membership of the three wrapped
neighbours of `x` in the point `{c}`: one of them belongs exactly when `x` is
in `{c - 1, c, c + 1}`. -/
theorem point_axis {w c x : Int} (hw : 5 ≤ w) (hc0 : 1 ≤ c) (hc : c ≤ w - 2)
    (hx0 : 0 ≤ x) (hx : x < w) :
    (decide ((x + -1) % w = c),
      decide (x = c),
      decide ((x + 1) % w = c),
      decide (x = c - 1 ∨ x = c ∨ x = c + 1))
    ∈ [(false, false, false, false), (false, false, true, true), (false, true, false, true),
        (true, false, false, true)] := by
  have hm := emod_pred hx0 hx
  have hp := emod_succ hx0 hx
  rcases decide_cases ((x + -1) % w = c) with ⟨h1, e1⟩ | ⟨h1, e1⟩ <;>
  rcases decide_cases (x = c) with ⟨h2, e2⟩ | ⟨h2, e2⟩ <;>
  rcases decide_cases ((x + 1) % w = c) with ⟨h3, e3⟩ | ⟨h3, e3⟩ <;>
  rcases decide_cases (x = c - 1 ∨ x = c ∨ x = c + 1) with ⟨h4, e4⟩ | ⟨h4, e4⟩ <;>
  rw [e1, e2, e3, e4] <;>
  first
  | decide
  | (exfalso; omega)

/-- On a well-formed field whose cells are described by `P`, the next state of
an in-range cell is the rule applied to the neighbour values of `P`. -/
theorem Field.nextCell_of_cells {f : Field} (hf : f.WF) (P : Int → Int → Bool)
    (hP : ∀ u v : Int, 0 ≤ u → u < f.w → 0 ≤ v → v < f.h → f.cell u v = P u v)
    {x y : Int} (hx0 : 0 ≤ x) (hx : x < f.w) (hy0 : 0 ≤ y) (hy : y < f.h) :
    f.nextCell x y = rule ((neighbourValues P f.w f.h x y).count true) (P x y) := by
  have hw0 := hf.1
  have hh0 := hf.2.1
  have hc : ∀ u v : Int, f.cell (u % f.w) (v % f.h) = P (u % f.w) (v % f.h) := fun u v =>
    hP _ _ (Int.emod_nonneg _ (by omega)) (Int.emod_lt_of_pos _ hw0)
      (Int.emod_nonneg _ (by omega)) (Int.emod_lt_of_pos _ hh0)
  unfold Field.nextCell countLive neighbourOffsets neighbourValues
  simp only [List.map_cons, List.map_nil, hc, hP x y hx0 hx hy0 hy]
  simp only [emod_zero_add hx0 hx, emod_zero_add hy0 hy]

/-- One `Step` of a well-formed `Life` whose current field is described by
`P`: when the rule turns `P` into `Q` at every in-range cell, the new current
field is described by `Q`. -/
theorem Life.Step_pattern (l : Life) (hl : l.WF) (P Q : Int → Int → Bool)
    (hP : ∀ x y : Int, 0 ≤ x → x < l.w → 0 ≤ y → y < l.h → l.a.Alive x y = .ok (P x y))
    (hQ : ∀ x y : Int, 0 ≤ x → x < l.w → 0 ≤ y → y < l.h →
      rule ((neighbourValues P l.w l.h x y).count true) (P x y) = Q x y) :
    ∃ l1, l.Step = .ok l1 ∧ l1.WF ∧ l1.w = l.w ∧ l1.h = l.h ∧
      ∀ x y : Int, 0 ≤ x → x < l.w → 0 ≤ y → y < l.h → l1.a.Alive x y = .ok (Q x y) := by
  obtain ⟨ha, hb, haw, hah, hbw, hbh⟩ := hl
  obtain ⟨b, hstep, hwf, hw, hh, hcell⟩ := Life.Step_spec l ⟨ha, hb, haw, hah, hbw, hbh⟩
  refine ⟨_, hstep, ⟨hwf, ha, hw, hh, haw, hah⟩, rfl, rfl, ?_⟩
  intro x y hx0 hx hy0 hy
  show b.Alive x y = _
  have hcellP : ∀ u v : Int, 0 ≤ u → u < l.a.w → 0 ≤ v → v < l.a.h → l.a.cell u v = P u v := by
    intro u v hu0 hu hv0 hv
    have h1 := hP u v hu0 (by omega) hv0 (by omega)
    rw [Field.Alive_inrange ha hu0 hu hv0 hv] at h1
    exact Except.ok.inj h1
  rw [Field.Alive_inrange hwf hx0 (by omega) hy0 (by omega), hcell x y hx0 hx hy0 hy,
    Field.nextCell_of_cells ha P hcellP hx0 (by omega) hy0 (by omega), haw, hah,
    hQ x y hx0 hx hy0 hy]

theorem rule_block (a1 a2 a3 b1 b2 b3 : Bool)
    (ha : (a1, a2, a3) ∈ [(false, false, false), (false, false, true), (false, true, true),
        (true, true, false), (true, false, false)])
    (hb : (b1, b2, b3) ∈ [(false, false, false), (false, false, true), (false, true, true),
        (true, true, false), (true, false, false)]) :
    rule ([a1 && b1, a1 && b2, a1 && b3, a2 && b1, a2 && b3, a3 && b1, a3 && b2,
      a3 && b3].count true) (a2 && b2) = (a2 && b2) := by
  revert ha hb
  cases a1 <;> cases a2 <;> cases a3 <;> cases b1 <;> cases b2 <;> cases b3 <;> decide

/-- C9: on a well-formed `Life` of width and height at least 4 whose current
field holds exactly the 2 x 2 block with corner `(x0, y0)`, `0 <= x0 <= w - 2`,
`0 <= y0 <= h - 2`, one `Step` returns a state whose current field holds
exactly the same block. -/
theorem C9_block_still_life (l : Life) (hl : l.WF) (hw : 4 ≤ l.w) (hh : 4 ≤ l.h)
    (x0 y0 : Int) (hx0 : 0 ≤ x0) (hx1 : x0 ≤ l.w - 2) (hy0 : 0 ≤ y0) (hy1 : y0 ≤ l.h - 2)
    (hblock : ∀ x y : Int, 0 ≤ x → x < l.w → 0 ≤ y → y < l.h →
      l.a.Alive x y = .ok (isBlock x0 y0 x y)) :
    ∃ l1, l.Step = .ok l1 ∧
      ∀ x y : Int, 0 ≤ x → x < l.w → 0 ≤ y → y < l.h →
        l1.a.Alive x y = .ok (isBlock x0 y0 x y) := by
  obtain ⟨l1, hstep, _, _, _, hres⟩ := Life.Step_pattern l hl (isBlock x0 y0) (isBlock x0 y0)
    hblock (by
      intro x y hx0' hx' hy0' hy'
      have hX := block_axis hw hx0 hx1 hx0' hx'
      have hY := block_axis hh hy0 hy1 hy0' hy'
      unfold neighbourValues isBlock
      simp only [Bool.decide_and]
      exact rule_block _ _ _ _ _ _ hX hY)
  exact ⟨l1, hstep, hres⟩

/-- C9 at `blockLife`. -/
theorem C9_block_still_life_witness :
    ∃ l1, blockLife.Step = .ok l1 ∧
      ∀ x y : Int, 0 ≤ x → x < blockLife.w → 0 ≤ y → y < blockLife.h →
        l1.a.Alive x y = .ok (isBlock 1 1 x y) :=
  C9_block_still_life blockLife (by decide) (by decide) (by decide) 1 1 (by decide) (by decide)
    (by decide) (by decide) (by
      intro x y hx0 hx hy0 hy
      have hx' : x < 4 := hx
      have hy' : y < 4 := hy
      interval_cases x <;> interval_cases y <;> decide)

theorem rule_line_to_column (a1 a2 a3 a b1 b2 b3 b : Bool)
    (ha : (a1, a2, a3, a) ∈ [(false, false, false, false), (false, false, true, false),
        (false, true, true, false), (true, true, true, true), (true, true, false, false),
        (true, false, false, false)])
    (hb : (b1, b2, b3, b) ∈ [(false, false, false, false), (false, false, true, true),
        (false, true, false, true), (true, false, false, true)]) :
    rule ([a1 && b1, a1 && b2, a1 && b3, a2 && b1, a2 && b3, a3 && b1, a3 && b2,
      a3 && b3].count true) (a2 && b2) = (a && b) := by
  revert ha hb
  cases a1 <;> cases a2 <;> cases a3 <;> cases a <;>
    cases b1 <;> cases b2 <;> cases b3 <;> cases b <;> decide

theorem rule_column_to_line (a1 a2 a3 a b1 b2 b3 b : Bool)
    (ha : (a1, a2, a3, a) ∈ [(false, false, false, false), (false, false, true, true),
        (false, true, false, true), (true, false, false, true)])
    (hb : (b1, b2, b3, b) ∈ [(false, false, false, false), (false, false, true, false),
        (false, true, true, false), (true, true, true, true), (true, true, false, false),
        (true, false, false, false)]) :
    rule ([a1 && b1, a1 && b2, a1 && b3, a2 && b1, a2 && b3, a3 && b1, a3 && b2,
      a3 && b3].count true) (a2 && b2) = (a && b) := by
  revert ha hb
  cases a1 <;> cases a2 <;> cases a3 <;> cases a <;>
    cases b1 <;> cases b2 <;> cases b3 <;> cases b <;> decide

/-- C10: on a well-formed `Life` of width and height at least 5 whose current
field holds exactly the horizontal line `(cx - 1, cy)`, `(cx, cy)`,
`(cx + 1, cy)`, with `1 <= cx <= w - 2` and `1 <= cy <= h - 2`, one `Step`
returns a state holding exactly the vertical line `(cx, cy - 1)`, `(cx, cy)`,
`(cx, cy + 1)`, and a second `Step` returns a state holding exactly the
horizontal line again. -/
theorem C10_blinker (l : Life) (hl : l.WF) (hw : 5 ≤ l.w) (hh : 5 ≤ l.h)
    (cx cy : Int) (hx0 : 1 ≤ cx) (hx1 : cx ≤ l.w - 2) (hy0 : 1 ≤ cy) (hy1 : cy ≤ l.h - 2)
    (hline : ∀ x y : Int, 0 ≤ x → x < l.w → 0 ≤ y → y < l.h →
      l.a.Alive x y = .ok (isHorizontal cx cy x y)) :
    ∃ l1 l2, l.Step = .ok l1 ∧ l1.Step = .ok l2 ∧
      (∀ x y : Int, 0 ≤ x → x < l.w → 0 ≤ y → y < l.h →
        l1.a.Alive x y = .ok (isVertical cx cy x y)) ∧
      (∀ x y : Int, 0 ≤ x → x < l.w → 0 ≤ y → y < l.h →
        l2.a.Alive x y = .ok (isHorizontal cx cy x y)) := by
  obtain ⟨l1, hstep1, hwf1, hw1, hh1, hres1⟩ := Life.Step_pattern l hl
    (isHorizontal cx cy) (isVertical cx cy) hline (by
      intro x y hx0' hx' hy0' hy'
      have hX := line_axis hw hx0 hx1 hx0' hx'
      have hY := point_axis hh hy0 hy1 hy0' hy'
      unfold neighbourValues isHorizontal isVertical
      simp only [Bool.decide_and]
      exact rule_line_to_column _ _ _ _ _ _ _ _ hX hY)
  obtain ⟨l2, hstep2, _, _, _, hres2⟩ := Life.Step_pattern l1 hwf1
    (isVertical cx cy) (isHorizontal cx cy)
    (by rw [hw1, hh1]; exact hres1) (by
      rw [hw1, hh1]
      intro x y hx0' hx' hy0' hy'
      have hX := point_axis hw hx0 hx1 hx0' hx'
      have hY := line_axis hh hy0 hy1 hy0' hy'
      unfold neighbourValues isHorizontal isVertical
      simp only [Bool.decide_and]
      exact rule_column_to_line _ _ _ _ _ _ _ _ hX hY)
  rw [hw1, hh1] at hres2
  exact ⟨l1, l2, hstep1, hstep2, hres1, hres2⟩

/-- C10 at `blinkerLife`. -/
theorem C10_blinker_witness :
    ∃ l1 l2, blinkerLife.Step = .ok l1 ∧ l1.Step = .ok l2 ∧
      (∀ x y : Int, 0 ≤ x → x < blinkerLife.w → 0 ≤ y → y < blinkerLife.h →
        l1.a.Alive x y = .ok (isVertical 2 2 x y)) ∧
      (∀ x y : Int, 0 ≤ x → x < blinkerLife.w → 0 ≤ y → y < blinkerLife.h →
        l2.a.Alive x y = .ok (isHorizontal 2 2 x y)) :=
  C10_blinker blinkerLife (by decide) (by decide) (by decide) 2 2 (by decide) (by decide)
    (by decide) (by decide) (by
      intro x y hx0 hx hy0 hy
      have hx' : x < 5 := hx
      have hy' : y < 5 := hy
      interval_cases x <;> interval_cases y <;> decide)

/-! ## Bookkeeping of `Step` and `Pause` -/

/-- `Step` does not read the pause flag. -/
theorem Life.Step_setPaused (l : Life) (p : Bool) :
    Life.Step { l with paused := p }
      = (l.Step >>= fun l1 => pure { l1 with paused := p }) := by
  unfold Life.Step
  simp only []
  cases forLoop l.h (fun y b => forLoop l.w (fun x b => do
      let v ← l.a.Next x y
      b.Set x y v) b) l.b <;> rfl

/-- C13: on a well-formed `Life` whose generation counter is below the largest
`int`, paused or not, `Step` returns a state with the generation one higher,
the same `paused`, `w` and `h`, and as scratch field exactly the field that was
current before the step. -/
theorem C13_step_bookkeeping (l : Life) (hl : l.WF)
    (hg0 : -9223372036854775808 ≤ l.generation) (hg : l.generation < 9223372036854775807) :
    ∃ l1, l.Step = .ok l1 ∧ l1.generation = l.generation + 1 ∧ l1.paused = l.paused ∧
      l1.w = l.w ∧ l1.h = l.h ∧ l1.b = l.a := by
  obtain ⟨b, hstep, _⟩ := Life.Step_spec l hl
  exact ⟨_, hstep, wrap64_of_range (by omega) (by omega), rfl, rfl, rfl, rfl⟩

/-- C13 at `sampleLife`. -/
theorem C13_step_bookkeeping_witness :
    ∃ l1, sampleLife.Step = .ok l1 ∧ l1.generation = sampleLife.generation + 1 ∧
      l1.paused = sampleLife.paused ∧ l1.w = sampleLife.w ∧ l1.h = sampleLife.h ∧
      l1.b = sampleLife.a :=
  C13_step_bookkeeping sampleLife (by decide) (by decide) (by decide)

/-- C14: `Pause` negates `paused` and leaves both fields, `w`, `h` and the
generation as they are; the dispatch of a key event with `Ch == 'p'` does
exactly `Pause` and nothing else; `IsPaused` returns the flag; two `Pause`
calls give back the original state. -/
theorem C14_pause_toggle (l : Life) (draws : Nat → Int × Int) (ev : Event)
    (hk : ev.typ = EventType.EventKey) (hc : ev.Ch = 'p') :
    l.Pause.paused = (!l.paused) ∧ l.Pause.a = l.a ∧ l.Pause.b = l.b ∧
      l.Pause.w = l.w ∧ l.Pause.h = l.h ∧ l.Pause.generation = l.generation ∧
    l.iterate draws (some ev) = .ok { life := l.Pause, effects := [], returned := false } ∧
    l.IsPaused = l.paused ∧
    l.Pause.Pause = l := by
  refine ⟨rfl, rfl, rfl, rfl, rfl, rfl, ?_, rfl, ?_⟩
  · unfold Life.iterate
    simp only [hk, hc, if_true]
    rfl
  · cases l
    simp [Life.Pause]

/-- C14 at `sampleLife`. -/
theorem C14_pause_toggle_witness :
    sampleLife.Pause.paused = (!sampleLife.paused) ∧ sampleLife.Pause.a = sampleLife.a ∧
      sampleLife.Pause.b = sampleLife.b ∧ sampleLife.Pause.w = sampleLife.w ∧
      sampleLife.Pause.h = sampleLife.h ∧
      sampleLife.Pause.generation = sampleLife.generation ∧
    sampleLife.iterate sampleDraws (some (charEvent 'p'))
      = .ok { life := sampleLife.Pause, effects := [], returned := false } ∧
    sampleLife.IsPaused = sampleLife.paused ∧
    sampleLife.Pause.Pause = sampleLife :=
  C14_pause_toggle sampleLife sampleDraws (charEvent 'p') (by decide) (by decide)

/-! ## The loop of `Run` -/

/-- The cell loop of `Render` returns on a well-formed `Life`. -/
theorem Life.Render_ok (l : Life) (hl : l.WF) : ∃ ops, l.Render = .ok ops := by
  obtain ⟨ha, _, haw, hah, _, _⟩ := hl
  have inner : ∀ (y : Nat) (ops : List TermOp), (y : Int) < l.h →
      ∃ ops', forLoop l.w (fun x ops => do
        let alive ← l.a.Alive x y
        let color := if alive then cellColor else boardColor
        pure (ops ++ [TermOp.SetCell (wrap64 (x + gameBorderCol))
          (wrap64 ((y : Int) + gameBorderRow)) ' ' color color])) ops = .ok ops' := by
    intro y ops hy
    obtain ⟨ops', h, _⟩ := forLoop_inv l.w (fun x ops => do
        let alive ← l.a.Alive x y
        let color := if alive then cellColor else boardColor
        pure (ops ++ [TermOp.SetCell (wrap64 (x + gameBorderCol))
          (wrap64 ((y : Int) + gameBorderRow)) ' ' color color])) ops (fun _ _ => True)
      trivial (by
        intro x st hx _
        beta_reduce
        rw [Field.Alive_inrange ha (Int.ofNat_nonneg x) (by omega) (Int.ofNat_nonneg y)
          (by omega)]
        exact ⟨_, rfl, trivial⟩)
    exact ⟨ops', h⟩
  obtain ⟨ops, h, _⟩ := forLoop_inv l.h
    (fun y ops => forLoop l.w (fun x ops => do
        let alive ← l.a.Alive x y
        let color := if alive then cellColor else boardColor
        pure (ops ++ [TermOp.SetCell (wrap64 (x + gameBorderCol))
          (wrap64 (y + gameBorderRow)) ' ' color color])) ops)
    ([TermOp.Clear backgroundColor backgroundColor]
      ++ printLines (wrap64 (l.w + wrap64 (gameBorderCol * 2))) gameBorderRow 0 titles
      ++ printLines (wrap64 (l.w + wrap64 (gameBorderCol * 2)))
          (wrap64 (wrap64 (gameBorderRow + (titles.length : Int)) + 2)) 0 instructions
      ++ tbprint (wrap64 (l.w + wrap64 (gameBorderCol * 2)))
          (wrap64 (wrap64 (gameBorderRow + l.h) - 2)) textColor backgroundColor
          (if l.paused then "PAUSED" else "RUNNING")
      ++ tbprint (wrap64 (l.w + wrap64 (gameBorderCol * 2)))
          (wrap64 (wrap64 (wrap64 (gameBorderRow + l.h) - 2) + 1)) textColor backgroundColor
          ("Generation: " ++ toString l.generation))
    (fun _ _ => True) trivial (by
      intro y st hy _
      obtain ⟨ops', h⟩ := inner y st hy
      exact ⟨ops', h, trivial⟩)
  refine ⟨ops ++ [TermOp.Flush], ?_⟩
  unfold Life.Render
  simp only []
  rw [h]
  rfl

/-- C12: a key event whose character is `'q'`, or whose key is Escape, Ctrl-C
or Ctrl-D (the character not being one of `'p'`, `'s'`, `'r'`, as for every
event the library delivers for these keys), makes `Run` return in any state,
paused or not: the pass has no effect, performs no `Step`, and the state at
the return is the state before the event. -/
theorem C12_quit_keys (l : Life) (draws : Nat → Int × Int) (ev : Event)
    (hk : ev.typ = EventType.EventKey)
    (hq : ev.Ch = 'q' ∨ ((ev.Key = KeyEsc ∨ ev.Key = KeyCtrlC ∨ ev.Key = KeyCtrlD) ∧
      ev.Ch ≠ 'p' ∧ ev.Ch ≠ 's' ∧ ev.Ch ≠ 'r')) :
    l.iterate draws (some ev) = .ok { life := l, effects := [], returned := true } ∧
    ∀ (source : Nat → Nat → Int × Int) (i : Nat) (rest : List (Option Event)),
      source i = draws →
      l.Run source i (some ev :: rest) = .ok { life := l, effects := [], returned := true } := by
  have h1 : l.iterate draws (some ev)
      = .ok { life := l, effects := [], returned := true } := by
    have hp : ev.Ch ≠ 'p' := by
      rcases hq with h | h
      · rw [h]; decide
      · exact h.2.1
    have hs : ev.Ch ≠ 's' := by
      rcases hq with h | h
      · rw [h]; decide
      · exact h.2.2.1
    have hr : ev.Ch ≠ 'r' := by
      rcases hq with h | h
      · rw [h]; decide
      · exact h.2.2.2
    have hquit : ev.Ch = 'q' ∨ ev.Key = KeyEsc ∨ ev.Key = KeyCtrlC ∨ ev.Key = KeyCtrlD := by
      rcases hq with h | h
      · exact Or.inl h
      · exact Or.inr h.1
    unfold Life.iterate
    simp only [hk, if_true, if_neg hp, if_neg hs, if_neg hr, if_pos hquit]
    rfl
  refine ⟨h1, ?_⟩
  intro source i rest hsrc
  unfold Life.Run
  rw [hsrc, h1]
  rfl

/-- C12 at `sampleLife` with the Escape key. -/
theorem C12_quit_keys_witness :
    sampleLife.iterate sampleDraws (some (keyEvent KeyEsc))
      = .ok { life := sampleLife, effects := [], returned := true } ∧
    ∀ (source : Nat → Nat → Int × Int) (i : Nat) (rest : List (Option Event)),
      source i = sampleDraws →
      sampleLife.Run source i (some (keyEvent KeyEsc) :: rest)
        = .ok { life := sampleLife, effects := [], returned := true } :=
  C12_quit_keys sampleLife sampleDraws (keyEvent KeyEsc) (by decide) (by decide)

/-- C18: an event that is not a key event, or a key event whose character is
none of `'p'`, `'s'`, `'r'`, `'q'` and whose key is none of Escape, Ctrl-C,
Ctrl-D, leaves the state as it is, has no effect and does not make `Run`
return. -/
theorem C18_ignored_events (l : Life) (draws : Nat → Int × Int) (ev : Event)
    (hev : ev.typ ≠ EventType.EventKey ∨
      (ev.Ch ≠ 'p' ∧ ev.Ch ≠ 's' ∧ ev.Ch ≠ 'r' ∧ ev.Ch ≠ 'q' ∧
        ev.Key ≠ KeyEsc ∧ ev.Key ≠ KeyCtrlC ∧ ev.Key ≠ KeyCtrlD)) :
    l.iterate draws (some ev) = .ok { life := l, effects := [], returned := false } := by
  unfold Life.iterate
  by_cases hk : ev.typ = EventType.EventKey
  · rcases hev with h | ⟨hp, hs, hr, hq, h1, h2, h3⟩
    · exact absurd hk h
    · have hquit : ¬ (ev.Ch = 'q' ∨ ev.Key = KeyEsc ∨ ev.Key = KeyCtrlC ∨ ev.Key = KeyCtrlD) := by
        rintro (h | h | h | h)
        · exact hq h
        · exact h1 h
        · exact h2 h
        · exact h3 h
      simp only [hk, if_true, if_neg hp, if_neg hs, if_neg hr, if_neg hquit]
      rfl
  · simp only [if_neg hk]
    rfl

/-- C18 at `sampleLife` with a resize event and with the key `'x'`. -/
theorem C18_ignored_events_witness :
    sampleLife.iterate sampleDraws
        (some { typ := EventType.EventResize, Key := 0, Ch := 'q' })
      = .ok { life := sampleLife, effects := [], returned := false } ∧
    sampleLife.iterate sampleDraws (some (charEvent 'x'))
      = .ok { life := sampleLife, effects := [], returned := false } :=
  ⟨C18_ignored_events sampleLife sampleDraws
      { typ := EventType.EventResize, Key := 0, Ch := 'q' } (by decide),
    C18_ignored_events sampleLife sampleDraws (charEvent 'x') (by decide)⟩

theorem Life.WF_setPaused {l : Life} (hl : l.WF) (p : Bool) :
    Life.WF { l with paused := p } := hl

theorem Life.WF_forcePause {l : Life} (hl : l.WF) :
    Life.WF (if !l.IsPaused then l.Pause else l) := by
  by_cases h : (!l.IsPaused) = true
  · rw [if_pos h]; exact hl
  · rw [if_neg h]; exact hl

/-- The dispatch of the key `'s'`: pause when running, then one `Step`. -/
theorem Life.iterate_step_key (l : Life) (hl : l.WF) (draws : Nat → Int × Int) (ev : Event)
    (hk : ev.typ = EventType.EventKey) (hc : ev.Ch = 's') :
    ∃ l1, Life.Step (if !l.IsPaused then l.Pause else l) = .ok l1 ∧
      l.iterate draws (some ev)
        = .ok { life := l1, effects := [Effect.step], returned := false } := by
  obtain ⟨b, hstep, _⟩ := Life.Step_spec _ (Life.WF_forcePause hl)
  refine ⟨_, hstep, ?_⟩
  have hp : ev.Ch ≠ 'p' := by rw [hc]; decide
  unfold Life.iterate
  simp only [hk, if_true, if_neg hp, if_pos hc]
  rw [hstep]
  rfl

/-- C11: on a well-formed running `Life` (generation at least two below the
largest `int`), the dispatch of a key event with `Ch == 's'` returns a paused
state, its generation one higher, its current field the current field of one
`Step` of the state before, having performed exactly one `Step`; a second such
event leaves the state paused, the generation one higher again, and the state
is exactly one further `Step`. -/
theorem C11_single_step (l : Life) (hl : l.WF) (hp : l.paused = false)
    (hg0 : -9223372036854775808 ≤ l.generation) (hg : l.generation + 2 ≤ 9223372036854775807)
    (draws1 draws2 : Nat → Int × Int) (ev : Event)
    (hk : ev.typ = EventType.EventKey) (hc : ev.Ch = 's') :
    ∃ s1 l1 l2, l.Step = .ok s1 ∧
      l.iterate draws1 (some ev)
        = .ok { life := l1, effects := [Effect.step], returned := false } ∧
      l1.paused = true ∧ l1.generation = l.generation + 1 ∧ l1.a = s1.a ∧ l1.b = s1.b ∧
      l1.Step = .ok l2 ∧
      l1.iterate draws2 (some ev)
        = .ok { life := l2, effects := [Effect.step], returned := false } ∧
      l2.paused = true ∧ l2.generation = l.generation + 2 := by
  obtain ⟨b, hstep, hbwf, hbw, hbh, _⟩ := Life.Step_spec l hl
  have hforce : (if !l.IsPaused then l.Pause else l) = { l with paused := true } := by
    simp [Life.IsPaused, Life.Pause, hp]
  obtain ⟨l1, h1, hit1⟩ := Life.iterate_step_key l hl draws1 ev hk hc
  rw [hforce, Life.Step_setPaused, hstep] at h1
  have hl1 : l1 =
      { l with a := b, b := l.a, generation := wrap64 (l.generation + 1), paused := true } :=
    (Except.ok.inj h1).symm
  have hgen1 : wrap64 (l.generation + 1) = l.generation + 1 :=
    wrap64_of_range (by omega) (by omega)
  have hwf1 : l1.WF := by
    rw [hl1]
    exact ⟨hbwf, hl.1, hbw, hbh, hl.2.2.1, hl.2.2.2.1⟩
  have hforce1 : (if !l1.IsPaused then l1.Pause else l1) = l1 := by
    rw [hl1]; rfl
  obtain ⟨l2, h2, hit2⟩ := Life.iterate_step_key l1 hwf1 draws2 ev hk hc
  rw [hforce1] at h2
  obtain ⟨b2, hstep2, _⟩ := Life.Step_spec l1 hwf1
  have hl2 : l2 = { l1 with a := b2, b := l1.a, generation := wrap64 (l1.generation + 1) } := by
    rw [hstep2] at h2
    exact (Except.ok.inj h2).symm
  refine ⟨_, l1, l2, hstep, hit1, ?_, ?_, ?_, ?_, h2, hit2, ?_, ?_⟩
  · rw [hl1]
  · rw [hl1]; exact hgen1
  · rw [hl1]
  · rw [hl1]
  · rw [hl2, hl1]
  · rw [hl2, hl1]
    show wrap64 (wrap64 (l.generation + 1) + 1) = _
    rw [hgen1, wrap64_of_range (by omega) (by omega)]
    omega

/-- C11 at `sampleLife`. -/
theorem C11_single_step_witness :
    ∃ s1 l1 l2, sampleLife.Step = .ok s1 ∧
      sampleLife.iterate sampleDraws (some (charEvent 's'))
        = .ok { life := l1, effects := [Effect.step], returned := false } ∧
      l1.paused = true ∧ l1.generation = sampleLife.generation + 1 ∧ l1.a = s1.a ∧
      l1.b = s1.b ∧ l1.Step = .ok l2 ∧
      l1.iterate sampleDraws (some (charEvent 's'))
        = .ok { life := l2, effects := [Effect.step], returned := false } ∧
      l2.paused = true ∧ l2.generation = sampleLife.generation + 2 :=
  C11_single_step sampleLife (by decide) (by decide) (by decide) (by decide)
    sampleDraws sampleDraws (charEvent 's') (by decide) (by decide)

/-- `Life.Randomize` on a well-formed `Life` with in-range draws returns a
well-formed `Life` of the same dimensions, generation 1. -/
theorem Life.Randomize_wf (l : Life) (hl : l.WF) (draws : Nat → Int × Int)
    (hwh : l.w * l.h ≤ 9223372036854775807)
    (hd : ∀ i : Nat, (i : Int) < l.w * l.h / 4 →
      0 ≤ (draws i).1 ∧ (draws i).1 < l.w ∧ 0 ≤ (draws i).2 ∧ (draws i).2 < l.h)
    (hfit : withinAlloc l.w l.h) :
    ∃ l1, l.Randomize draws = .ok l1 ∧ l1.WF ∧ l1.w = l.w ∧ l1.h = l.h ∧
      l1.generation = 1 ∧ l1.paused = l.paused ∧ l1.b = l.b := by
  obtain ⟨ha, hb, haw, hah, hbw, hbh⟩ := hl
  obtain ⟨g, hg, hwf, hgw, hgh, _⟩ := Field.Randomize_spec draws l.a ha.1 ha.2.1 ha.2.2.1
    ha.2.2.2.1 (by rw [haw, hah]; exact hwh) (by rw [haw, hah]; exact hd)
    (by rw [haw, hah]; exact hfit)
  refine ⟨{ l with a := g, generation := 1 }, ?_,
    ⟨hwf, hb, hgw.trans haw, hgh.trans hah, hbw, hbh⟩, rfl, rfl, rfl, rfl, rfl⟩
  unfold Life.Randomize
  rw [hg]
  rfl

/-- C15: one pass of the loop of `Run` on a well-formed `Life`.  With no event
pending and `paused == false` the pass performs exactly one `Step`, then
renders and sleeps; with no event pending and `paused == true` the state is
unchanged; with an event pending the pass returns having performed at most
one `Step`, and one exactly when the event is the key `'s'`.  The pass for the
key `'r'` returns for dimensions within the limit of `make`, as every field
the program allocates has; on a state declared larger it panics in `make`. -/
theorem C15_iteration_policy (l : Life) (hl : l.WF) (draws : Nat → Int × Int)
    (hwh : l.w * l.h ≤ 9223372036854775807)
    (hd : ∀ i : Nat, (i : Int) < l.w * l.h / 4 →
      0 ≤ (draws i).1 ∧ (draws i).1 < l.w ∧ 0 ≤ (draws i).2 ∧ (draws i).2 < l.h) :
    (l.paused = false → ∃ l1 ops, l.Step = .ok l1 ∧ l1.Render = .ok ops ∧
      l.iterate draws none = .ok
        { life := l1, effects := [Effect.step, Effect.render ops, Effect.sleep],
          returned := false }) ∧
    (l.paused = true → ∃ ops, l.Render = .ok ops ∧
      l.iterate draws none = .ok
        { life := l, effects := [Effect.render ops, Effect.sleep], returned := false }) ∧
    (∀ ev : Event, withinAlloc l.w l.h ∨ ¬ (ev.typ = EventType.EventKey ∧ ev.Ch = 'r') →
      ∃ out, l.iterate draws (some ev) = .ok out ∧
        out.effects.count Effect.step ≤ 1 ∧
        (out.effects.count Effect.step = 1 ↔ ev.typ = EventType.EventKey ∧ ev.Ch = 's')) ∧
    (∃ out, l.iterate draws none = .ok out ∧ out.effects.count Effect.step ≤ 1) ∧
    (∀ ev : Event, ¬ withinAlloc l.w l.h → ev.typ = EventType.EventKey → ev.Ch = 'r' →
      l.iterate draws (some ev) = .error .makeLenOutOfRange) := by
  have hrun : l.paused = false → ∃ l1 ops, l.Step = .ok l1 ∧ l1.Render = .ok ops ∧
      l.iterate draws none = .ok
        { life := l1, effects := [Effect.step, Effect.render ops, Effect.sleep],
          returned := false } := by
    intro hp
    obtain ⟨b, hstep, hbwf, hbw, hbh, _⟩ := Life.Step_spec l hl
    have hwf1 : Life.WF { l with a := b, b := l.a, generation := wrap64 (l.generation + 1) } :=
      ⟨hbwf, hl.1, hbw, hbh, hl.2.2.1, hl.2.2.2.1⟩
    obtain ⟨ops, hops⟩ := Life.Render_ok _ hwf1
    refine ⟨_, ops, hstep, hops, ?_⟩
    simp only [hp] at hops
    unfold Life.iterate
    simp only [hp, Bool.not_false, if_true, hstep, ok_bind, pure_eq_ok, hops]
    rfl
  have hidle : l.paused = true → ∃ ops, l.Render = .ok ops ∧
      l.iterate draws none = .ok
        { life := l, effects := [Effect.render ops, Effect.sleep], returned := false } := by
    intro hp
    obtain ⟨ops, hops⟩ := Life.Render_ok l hl
    refine ⟨ops, hops, ?_⟩
    unfold Life.iterate
    simp only [hp, Bool.not_true, Bool.false_eq_true, if_false, ok_bind, pure_eq_ok, hops]
    rfl
  refine ⟨hrun, hidle, ?_, ?_, ?_⟩
  · intro ev hcond
    by_cases hk : ev.typ = EventType.EventKey
    · by_cases hp : ev.Ch = 'p'
      · refine ⟨{ life := l.Pause, effects := [], returned := false }, ?_, by simp, ?_⟩
        · unfold Life.iterate
          simp only [hk, hp, if_true]
          rfl
        · have : ev.Ch ≠ 's' := by rw [hp]; decide
          simp [this]
      · by_cases hs : ev.Ch = 's'
        · obtain ⟨l1, _, hit⟩ := Life.iterate_step_key l hl draws ev hk hs
          exact ⟨_, hit, by simp, by simp [hk, hs]⟩
        · by_cases hr : ev.Ch = 'r'
          · have hfit : withinAlloc l.w l.h := by
              rcases hcond with h | h
              · exact h
              · exact absurd ⟨hk, hr⟩ h
            obtain ⟨l1, hrand, _⟩ := Life.Randomize_wf l hl draws hwh hd hfit
            refine ⟨{ life := l1, effects := [], returned := false }, ?_, by simp, ?_⟩
            · unfold Life.iterate
              simp only [hk, if_true, if_neg hp, if_neg hs, if_pos hr, hrand, ok_bind]
              rfl
            · simp [hs]
          · by_cases hq : ev.Ch = 'q' ∨ ev.Key = KeyEsc ∨ ev.Key = KeyCtrlC ∨ ev.Key = KeyCtrlD
            · refine ⟨{ life := l, effects := [], returned := true }, ?_, by simp, ?_⟩
              · unfold Life.iterate
                simp only [hk, if_true, if_neg hp, if_neg hs, if_neg hr, if_pos hq]
                rfl
              · simp [hs]
            · refine ⟨{ life := l, effects := [], returned := false }, ?_, by simp, ?_⟩
              · unfold Life.iterate
                simp only [hk, if_true, if_neg hp, if_neg hs, if_neg hr, if_neg hq]
                rfl
              · simp [hs]
    · refine ⟨{ life := l, effects := [], returned := false }, ?_, by simp, ?_⟩
      · unfold Life.iterate
        simp only [if_neg hk]
        rfl
      · simp [hk]
  · cases hp : l.paused
    · obtain ⟨l1, ops, _, _, hit⟩ := hrun hp
      exact ⟨_, hit, by simp [List.count_cons]⟩
    · obtain ⟨ops, _, hit⟩ := hidle hp
      exact ⟨_, hit, by simp [List.count_cons]⟩
  · intro ev hfit hk hr
    have hp : ev.Ch ≠ 'p' := by rw [hr]; decide
    have hs : ev.Ch ≠ 's' := by rw [hr]; decide
    have hpanic := Life.Randomize_refused draws l hl.1.2.1
      (by rw [hl.2.2.1, hl.2.2.2.1]; exact hfit)
    unfold Life.iterate
    simp only [hk, if_true, if_neg hp, if_neg hs, if_pos hr, hpanic, error_bind]

/-- C15 at `sampleLife` with `sampleDraws`. -/
theorem C15_iteration_policy_witness :
    (sampleLife.paused = false → ∃ l1 ops, sampleLife.Step = .ok l1 ∧ l1.Render = .ok ops ∧
      sampleLife.iterate sampleDraws none = .ok
        { life := l1, effects := [Effect.step, Effect.render ops, Effect.sleep],
          returned := false }) ∧
    (sampleLife.paused = true → ∃ ops, sampleLife.Render = .ok ops ∧
      sampleLife.iterate sampleDraws none = .ok
        { life := sampleLife, effects := [Effect.render ops, Effect.sleep],
          returned := false }) ∧
    (∀ ev : Event,
      withinAlloc sampleLife.w sampleLife.h ∨ ¬ (ev.typ = EventType.EventKey ∧ ev.Ch = 'r') →
      ∃ out, sampleLife.iterate sampleDraws (some ev) = .ok out ∧
        out.effects.count Effect.step ≤ 1 ∧
        (out.effects.count Effect.step = 1 ↔ ev.typ = EventType.EventKey ∧ ev.Ch = 's')) ∧
    (∃ out, sampleLife.iterate sampleDraws none = .ok out ∧
      out.effects.count Effect.step ≤ 1) ∧
    (∀ ev : Event, ¬ withinAlloc sampleLife.w sampleLife.h → ev.typ = EventType.EventKey →
      ev.Ch = 'r' → sampleLife.iterate sampleDraws (some ev) = .error .makeLenOutOfRange) :=
  C15_iteration_policy sampleLife (by decide) sampleDraws (by decide) (by
    intro i _
    unfold sampleDraws
    by_cases h : i = 0 <;> simp [h, sampleLife])

/-! ## The generation counter -/

/-- A sequence of `Step` and `Pause` calls on a well-formed `Life` returns, and
adds the number of `Step` calls to the generation counter. -/
theorem Life.calls_generation (cs : List Call) :
    ∀ l : Life, l.WF → -9223372036854775808 ≤ l.generation →
      l.generation + (cs.count Call.Step : Int) ≤ 9223372036854775807 →
      ∃ l1, l.calls cs = .ok l1 ∧ l1.WF ∧ l1.w = l.w ∧ l1.h = l.h ∧
        l1.generation = l.generation + (cs.count Call.Step : Int) := by
  induction cs with
  | nil =>
    intro l hl _ _
    exact ⟨l, rfl, hl, rfl, rfl, by simp⟩
  | cons c cs ih =>
    intro l hl hg0 hg
    cases c with
    | Step =>
      have hcount : ((Call.Step :: cs).count Call.Step : Int) = (cs.count Call.Step : Int) + 1 := by
        simp
      rw [hcount] at hg ⊢
      obtain ⟨b, hstep, hbwf, hbw, hbh, _⟩ := Life.Step_spec l hl
      have hgen : wrap64 (l.generation + 1) = l.generation + 1 :=
        wrap64_of_range (by omega) (by omega)
      obtain ⟨l1, hcalls, hwf1, hw1, hh1, hg1⟩ :=
        ih { l with a := b, b := l.a, generation := wrap64 (l.generation + 1) }
          ⟨hbwf, hl.1, hbw, hbh, hl.2.2.1, hl.2.2.2.1⟩
          (by show _ ≤ wrap64 (l.generation + 1); rw [hgen]; omega)
          (by show wrap64 (l.generation + 1) + _ ≤ _; rw [hgen]; omega)
      refine ⟨l1, ?_, hwf1, hw1, hh1, ?_⟩
      · show (l.Step >>= fun l => l.calls cs) = _
        rw [hstep]
        exact hcalls
      · rw [hg1]
        show wrap64 (l.generation + 1) + _ = _
        rw [hgen]
        omega
    | Pause =>
      have hcount : ((Call.Pause :: cs).count Call.Step : Int) = (cs.count Call.Step : Int) := by
        simp
      rw [hcount] at hg ⊢
      obtain ⟨l1, hcalls, hwf1, hw1, hh1, hg1⟩ := ih l.Pause hl hg0 hg
      exact ⟨l1, hcalls, hwf1, hw1, hh1, hg1⟩

/-- C16, as stated, fails: the state `NewLife` returns has seen no `Step` and
has generation 1, and after two `Step` calls (and a `Pause`) the generation
is 3. -/
theorem C16_generation_off_by_one :
    ∃ l0 l2, NewLife none sampleDraws 3 3 = .ok (.ok l0) ∧
      l0.calls [] = .ok l0 ∧ ([] : List Call).count Call.Step = 0 ∧ l0.generation = 1 ∧
      l0.calls [Call.Step, Call.Pause, Call.Step] = .ok l2 ∧
      [Call.Step, Call.Pause, Call.Step].count Call.Step = 2 ∧ l2.generation = 3 := by
  refine ⟨_, _, rfl, rfl, rfl, rfl, rfl, rfl, rfl⟩

/-- `NewLife` and `Life.Randomize` return states of generation 1. -/
theorem generation_one_of_fresh (l0 : Life)
    (hfrom : (∃ initErr draws w h, NewLife initErr draws w h = .ok (.ok l0)) ∨
      (∃ l draws, Life.Randomize draws l = .ok l0)) :
    l0.generation = 1 := by
  rcases hfrom with ⟨e, d, w, h, hnew⟩ | ⟨l, d, hr⟩
  · unfold NewLife at hnew
    cases e with
    | some err =>
      have h1 := Except.ok.inj hnew
      cases h1
    | none =>
      simp only [] at hnew
      cases h1 : NewField w h with
      | error p => rw [h1] at hnew; cases hnew
      | ok a =>
        rw [h1] at hnew
        simp only [ok_bind] at hnew
        cases h2 : a.Randomize d with
        | error p => rw [h2] at hnew; cases hnew
        | ok a' =>
          rw [h2] at hnew
          simp only [ok_bind, pure_eq_ok] at hnew
          have h3 := Except.ok.inj (Except.ok.inj hnew)
          rw [← h3]
  · unfold Life.Randomize at hr
    cases h1 : l.a.Randomize d with
    | error p => rw [h1] at hr; cases hr
    | ok a' =>
      rw [h1] at hr
      simp only [ok_bind, pure_eq_ok] at hr
      have h3 := Except.ok.inj hr
      rw [← h3]

/-- C16, amended: in the well-formed state reached from the state `NewLife` or
`Life.Randomize` returned by a sequence of `Step` and `Pause` calls with `n`
`Step` calls, the generation counter is `n + 1`. -/
theorem C16_generation_counts_steps (l0 : Life) (hl : l0.WF)
    (hfrom : (∃ initErr draws w h, NewLife initErr draws w h = .ok (.ok l0)) ∨
      (∃ l draws, Life.Randomize draws l = .ok l0))
    (cs : List Call) (hn : (cs.count Call.Step : Int) + 1 ≤ 9223372036854775807) :
    ∃ l1, l0.calls cs = .ok l1 ∧ l1.generation = (cs.count Call.Step : Int) + 1 := by
  have hg := generation_one_of_fresh l0 hfrom
  obtain ⟨l1, hcalls, _, _, _, hg1⟩ := Life.calls_generation cs l0 hl (by omega) (by omega)
  exact ⟨l1, hcalls, by rw [hg1, hg]; omega⟩

/-- C16, amended, at the state `NewLife(3, 3)` returns. -/
theorem C16_generation_counts_steps_witness :
    ∃ l1, newLifeSample.calls [Call.Step, Call.Pause, Call.Step] = .ok l1 ∧
      l1.generation = (([Call.Step, Call.Pause, Call.Step].count Call.Step : Nat) : Int) + 1 :=
  C16_generation_counts_steps newLifeSample (by decide)
    (Or.inl ⟨none, sampleDraws, 3, 3, rfl⟩) [Call.Step, Call.Pause, Call.Step] (by decide)

/-! ## Rendering -/

/-- A pass of the loop that handles an event performs no effect other than the
`Step` of the key `'s'`. -/
theorem Life.iterate_event_effects (l : Life) (draws : Nat → Int × Int) (ev : Event)
    (out : Outcome) (h : l.iterate draws (some ev) = .ok out) :
    out.effects = [] ∨ out.effects = [Effect.step] := by
  unfold Life.iterate at h
  simp only [] at h
  by_cases hk : ev.typ = EventType.EventKey
  · rw [if_pos hk] at h
    by_cases hp : ev.Ch = 'p'
    · rw [if_pos hp] at h
      have := Except.ok.inj h
      rw [← this]; exact Or.inl rfl
    · rw [if_neg hp] at h
      by_cases hs : ev.Ch = 's'
      · rw [if_pos hs] at h
        cases h1 : Life.Step (if !l.IsPaused then l.Pause else l) with
        | error p => rw [h1] at h; cases h
        | ok l1 =>
          rw [h1] at h
          have := Except.ok.inj h
          rw [← this]; exact Or.inr rfl
      · rw [if_neg hs] at h
        by_cases hr : ev.Ch = 'r'
        · rw [if_pos hr] at h
          cases h1 : l.Randomize draws with
          | error p => rw [h1] at h; cases h
          | ok l1 =>
            rw [h1] at h
            have := Except.ok.inj h
            rw [← this]; exact Or.inl rfl
        · rw [if_neg hr] at h
          by_cases hq : ev.Ch = 'q' ∨ ev.Key = KeyEsc ∨ ev.Key = KeyCtrlC ∨ ev.Key = KeyCtrlD
          · rw [if_pos hq] at h
            have := Except.ok.inj h
            rw [← this]; exact Or.inl rfl
          · rw [if_neg hq] at h
            have := Except.ok.inj h
            rw [← this]; exact Or.inl rfl
  · rw [if_neg hk] at h
    have := Except.ok.inj h
    rw [← this]; exact Or.inl rfl

/-- C17, as stated, fails: the passes of the loop that handle the keys `'p'`
and `'s'` on `sampleLife` do not make `Run` return and perform no `Render`. -/
theorem C17_no_render_on_event :
    (∃ out, sampleLife.iterate sampleDraws (some (charEvent 'p')) = .ok out ∧
      out.returned = false ∧ (out.effects.filter Effect.isRender).length = 0) ∧
    (∃ out, sampleLife.iterate sampleDraws (some (charEvent 's')) = .ok out ∧
      out.returned = false ∧ (out.effects.filter Effect.isRender).length = 0) := by
  exact ⟨⟨_, rfl, rfl, rfl⟩, ⟨_, rfl, rfl, rfl⟩⟩

/-- C17, amended: on a well-formed `Life`, a pass of the loop of `Run` with no
event pending performs exactly one `Render`, of the state the pass ends in,
whether running or paused, and does not make `Run` return; a pass that
handles an event performs no `Render`. -/
theorem C17_render_when_idle (l : Life) (hl : l.WF) (draws : Nat → Int × Int) :
    (∃ out ops, l.iterate draws none = .ok out ∧ out.returned = false ∧
      out.life.Render = .ok ops ∧
      out.effects.filter Effect.isRender = [Effect.render ops]) ∧
    (∀ (ev : Event) (out : Outcome), l.iterate draws (some ev) = .ok out →
      out.effects.filter Effect.isRender = []) := by
  constructor
  · cases hp : l.paused
    · obtain ⟨b, hstep, hbwf, hbw, hbh, _⟩ := Life.Step_spec l hl
      have hwf1 : Life.WF { l with a := b, b := l.a, generation := wrap64 (l.generation + 1) } :=
        ⟨hbwf, hl.1, hbw, hbh, hl.2.2.1, hl.2.2.2.1⟩
      obtain ⟨ops, hops⟩ := Life.Render_ok _ hwf1
      refine ⟨{ life := { l with a := b, b := l.a, generation := wrap64 (l.generation + 1) },
                effects := [Effect.step, Effect.render ops, Effect.sleep],
                returned := false }, ops, ?_, rfl, hops, rfl⟩
      simp only [hp] at hops
      unfold Life.iterate
      simp only [hp, Bool.not_false, if_true, hstep, ok_bind, pure_eq_ok, hops]
      rfl
    · obtain ⟨ops, hops⟩ := Life.Render_ok l hl
      refine ⟨{ life := l, effects := [Effect.render ops, Effect.sleep], returned := false },
        ops, ?_, rfl, hops, rfl⟩
      unfold Life.iterate
      simp only [hp, Bool.not_true, Bool.false_eq_true, if_false, ok_bind, pure_eq_ok, hops]
      rfl
  · intro ev out h
    rcases Life.iterate_event_effects l draws ev out h with h1 | h1 <;> rw [h1] <;> rfl

/-- C17, amended, at `sampleLife`. -/
theorem C17_render_when_idle_witness :
    (∃ out ops, sampleLife.iterate sampleDraws none = .ok out ∧ out.returned = false ∧
      out.life.Render = .ok ops ∧
      out.effects.filter Effect.isRender = [Effect.render ops]) ∧
    (∀ (ev : Event) (out : Outcome), sampleLife.iterate sampleDraws (some ev) = .ok out →
      out.effects.filter Effect.isRender = []) :=
  C17_render_when_idle sampleLife (by decide) sampleDraws

/-! ## Well-formedness is kept -/

theorem NewField_returns (w h : Int) (hw : 0 ≤ w) (hh : 0 ≤ h) (ha : withinAlloc w h) :
    NewField w h
      = .ok { s := List.replicate h.toNat (List.replicate w.toNat false), w := w, h := h } :=
  Field.Clear_spec { s := [], w := w, h := h } hw hh ha

theorem NewField_panics (w h : Int) (hh : 0 < h) (ha : ¬ withinAlloc w h) :
    NewField w h = .error .makeLenOutOfRange :=
  Field.Clear_panics { s := [], w := w, h := h } hh ha

/-- C19, as stated, fails: with `w = 2^50` and `h = 1`, both positive, and
draws that are all in range, `NewLife(w, h)` panics in the `make` of
`NewField` instead of returning a well-formed state. -/
theorem C19_newLife_panics_beyond_limit :
    (0 : Int) < 1125899906842624 ∧ (0 : Int) < 1 ∧
    (∀ i : Nat, 0 ≤ (zeroDraws i).1 ∧ (zeroDraws i).1 < 1125899906842624 ∧
      0 ≤ (zeroDraws i).2 ∧ (zeroDraws i).2 < 1) ∧
    NewLife none zeroDraws 1125899906842624 1 = .error .makeLenOutOfRange := by
  refine ⟨by decide, by decide, ?_, rfl⟩
  intro i
  simp [zeroDraws]

/-- C19, amended: for `0 < w`, `0 < h` within the limit of `make` and in-range
draws, `NewLife(w, h)` returns a well-formed state of generation 1, not paused
(beyond the limit it panics in `make`); `Step` and `Pause` take a well-formed
state to a well-formed state of the same `w` and `h`, and so does `Randomize`
for dimensions within the limit; and in a well-formed state `Step` and
`Render` return without a panic, every `Alive` call of `Next` and of the cell
loop of `Render` having `x >= -1` and `y >= -1` and returning. -/
theorem C19_wellformed (w h : Int) (draws : Nat → Int × Int)
    (hw0 : 0 < w) (hh0 : 0 < h)
    (hwh : w * h ≤ 9223372036854775807)
    (hd : ∀ i : Nat, (i : Int) < w * h / 4 →
      0 ≤ (draws i).1 ∧ (draws i).1 < w ∧ 0 ≤ (draws i).2 ∧ (draws i).2 < h) :
    (withinAlloc w h →
      ∃ l, NewLife none draws w h = .ok (.ok l) ∧ l.WF ∧ l.w = w ∧ l.h = h ∧
        l.generation = 1 ∧ l.paused = false) ∧
    (¬ withinAlloc w h → NewLife none draws w h = .error .makeLenOutOfRange) ∧
    (∀ l : Life, l.WF → l.w = w → l.h = h →
      (∃ l1, l.Step = .ok l1 ∧ l1.WF ∧ l1.w = l.w ∧ l1.h = l.h) ∧
      (l.Pause.WF ∧ l.Pause.w = l.w ∧ l.Pause.h = l.h) ∧
      (withinAlloc w h →
        ∃ l1, l.Randomize draws = .ok l1 ∧ l1.WF ∧ l1.w = l.w ∧ l1.h = l.h) ∧
      (¬ withinAlloc w h → l.Randomize draws = .error .makeLenOutOfRange) ∧
      (∃ ops, l.Render = .ok ops) ∧
      (∀ x y : Int, 0 ≤ x → x < l.w → 0 ≤ y → y < l.h →
        (∃ v, l.a.Alive x y = .ok v) ∧
        ∀ i ∈ offsets, ∀ j ∈ offsets,
          -1 ≤ wrap64 (x + i) ∧ -1 ≤ wrap64 (y + j) ∧
          ∃ v, l.a.Alive (wrap64 (x + i)) (wrap64 (y + j)) = .ok v)) := by
  refine ⟨?_, ?_, ?_⟩
  · intro hfit
    obtain ⟨hw, hh⟩ := withinAlloc_bounds hfit
    have hnf := NewField_returns w h (le_of_lt hw0) (le_of_lt hh0) hfit
    have hwf := replicate_wf w h hw0 hh0 hw hh
    obtain ⟨g, hg, hgwf, hgw, hgh, _⟩ := Field.Randomize_spec draws
      { s := List.replicate h.toNat (List.replicate w.toNat false), w := w, h := h }
      hw0 hh0 hw hh hwh hd hfit
    refine ⟨{ a := g, b := { s := List.replicate h.toNat (List.replicate w.toNat false),
                             w := w, h := h },
              w := w, h := h, generation := 1, paused := false }, ?_,
      ⟨hgwf, hwf, hgw, hgh, rfl, rfl⟩, rfl, rfl, rfl, rfl⟩
    unfold NewLife
    simp only [hnf, ok_bind, hg]
    rfl
  · intro hfit
    unfold NewLife
    simp only [NewField_panics w h hh0 hfit, error_bind]
  · intro l hl hlw hlh
    obtain ⟨b, hstep, hbwf, hbw, hbh, _⟩ := Life.Step_spec l hl
    refine ⟨⟨_, hstep, ⟨hbwf, hl.1, hbw, hbh, hl.2.2.1, hl.2.2.2.1⟩, rfl, rfl⟩,
      ⟨hl, rfl, rfl⟩, ?_, ?_, Life.Render_ok l hl, ?_⟩
    · intro hfit
      obtain ⟨l1, h1, h2, h3, h4, _⟩ := Life.Randomize_wf l hl draws
        (by rw [hlw, hlh]; exact hwh) (by rw [hlw, hlh]; exact hd)
        (by rw [hlw, hlh]; exact hfit)
      exact ⟨l1, h1, h2, h3, h4⟩
    · intro hfit
      exact Life.Randomize_refused draws l hl.1.2.1
        (by rw [hl.2.2.1, hl.2.2.2.1, hlw, hlh]; exact hfit)
    · intro x y hx0 hx hy0 hy
      obtain ⟨ha, _, haw, hah, _, _⟩ := hl
      have hx' : x < l.a.w := by omega
      have hy' : y < l.a.h := by omega
      have hwb := ha.2.2.1
      have hhb := ha.2.2.2.1
      refine ⟨⟨_, Field.Alive_inrange ha hx0 hx' hy0 hy'⟩, ?_⟩
      intro i hi j hj
      have hib : -1 ≤ i ∧ i ≤ 1 := by
        simp only [offsets, List.mem_cons, List.mem_singleton, List.not_mem_nil, or_false] at hi
        omega
      have hjb : -1 ≤ j ∧ j ≤ 1 := by
        simp only [offsets, List.mem_cons, List.mem_singleton, List.not_mem_nil, or_false] at hj
        omega
      refine ⟨?_, ?_, _, Field.Alive_neighbour ha hx0 hx' hy0 hy' hib.1 hib.2 hjb.1 hjb.2⟩
      · rw [wrap64_of_range (by omega) (by omega)]; omega
      · rw [wrap64_of_range (by omega) (by omega)]; omega

/-- C19, amended, at width 3 and height 3 with `sampleDraws`. -/
theorem C19_wellformed_witness :
    (withinAlloc 3 3 →
      ∃ l, NewLife none sampleDraws 3 3 = .ok (.ok l) ∧ l.WF ∧ l.w = 3 ∧ l.h = 3 ∧
        l.generation = 1 ∧ l.paused = false) ∧
    (¬ withinAlloc 3 3 → NewLife none sampleDraws 3 3 = .error .makeLenOutOfRange) ∧
    (∀ l : Life, l.WF → l.w = 3 → l.h = 3 →
      (∃ l1, l.Step = .ok l1 ∧ l1.WF ∧ l1.w = l.w ∧ l1.h = l.h) ∧
      (l.Pause.WF ∧ l.Pause.w = l.w ∧ l.Pause.h = l.h) ∧
      (withinAlloc 3 3 →
        ∃ l1, l.Randomize sampleDraws = .ok l1 ∧ l1.WF ∧ l1.w = l.w ∧ l1.h = l.h) ∧
      (¬ withinAlloc 3 3 → l.Randomize sampleDraws = .error .makeLenOutOfRange) ∧
      (∃ ops, l.Render = .ok ops) ∧
      (∀ x y : Int, 0 ≤ x → x < l.w → 0 ≤ y → y < l.h →
        (∃ v, l.a.Alive x y = .ok v) ∧
        ∀ i ∈ offsets, ∀ j ∈ offsets,
          -1 ≤ wrap64 (x + i) ∧ -1 ≤ wrap64 (y + j) ∧
          ∃ v, l.a.Alive (wrap64 (x + i)) (wrap64 (y + j)) = .ok v)) :=
  C19_wellformed 3 3 sampleDraws (by decide) (by decide) (by decide)
    (by
      intro i _
      unfold sampleDraws
      by_cases h : i = 0 <;> simp [h])

/-! ## Translation on the torus -/

theorem Field.shift_wf {f : Field} (hf : f.WF) (dx dy : Int) : (f.shift dx dy).WF := by
  obtain ⟨h1, h2, h3, h4, _, _⟩ := hf
  refine ⟨h1, h2, h3, h4, by simp [Field.shift], ?_⟩
  intro r hr
  simp only [Field.shift, List.mem_map] at hr
  obtain ⟨y, _, rfl⟩ := hr
  simp only [List.length_map, List.length_range]
  rfl

theorem Field.cell_shift (f : Field) (dx dy : Int) {u v : Int}
    (hu0 : 0 ≤ u) (hu : u < f.w) (hv0 : 0 ≤ v) (hv : v < f.h) :
    (f.shift dx dy).cell u v = f.cell ((u + dx) % f.w) ((v + dy) % f.h) := by
  have h1 : v.toNat < f.h.toNat := by omega
  have h2 : u.toNat < f.w.toNat := by omega
  simp only [Field.cell, Field.shift, List.getD_eq_getElem?_getD, List.getElem?_map,
    List.getElem?_range h1, List.getElem?_range h2, Option.map_some', Option.getD_some,
    Int.toNat_of_nonneg hu0, Int.toNat_of_nonneg hv0]

/-- The next state of a cell of the shifted field is the next state of the
shifted cell. -/
theorem Field.nextCell_shift (f : Field) (hf : f.WF) (dx dy : Int) {x y : Int}
    (hx0 : 0 ≤ x) (hx : x < f.w) (hy0 : 0 ≤ y) (hy : y < f.h) :
    (f.shift dx dy).nextCell x y = f.nextCell ((x + dx) % f.w) ((y + dy) % f.h) := by
  have hw0 := hf.1
  have hh0 := hf.2.1
  have hc : ∀ i j : Int,
      (f.shift dx dy).cell ((x + i) % f.w) ((y + j) % f.h)
        = f.cell (((x + dx) % f.w + i) % f.w) (((y + dy) % f.h + j) % f.h) := by
    intro i j
    rw [Field.cell_shift f dx dy (Int.emod_nonneg _ (by omega)) (Int.emod_lt_of_pos _ hw0)
      (Int.emod_nonneg _ (by omega)) (Int.emod_lt_of_pos _ hh0)]
    have e1 : ((x + i) % f.w + dx) % f.w = ((x + dx) % f.w + i) % f.w := by
      rw [Int.emod_add_emod, Int.emod_add_emod]
      congr 1
      omega
    have e2 : ((y + j) % f.h + dy) % f.h = ((y + dy) % f.h + j) % f.h := by
      rw [Int.emod_add_emod, Int.emod_add_emod]
      congr 1
      omega
    rw [e1, e2]
  have hfun : (fun i j : Int => (f.shift dx dy).cell ((x + i) % (f.shift dx dy).w)
        ((y + j) % (f.shift dx dy).h))
      = (fun i j : Int => f.cell (((x + dx) % f.w + i) % f.w) (((y + dy) % f.h + j) % f.h)) := by
    funext i j
    exact hc i j
  unfold Field.nextCell
  rw [hfun, Field.cell_shift f dx dy hx0 hx hy0 hy]

/-- C20: `Step` commutes with translation on the torus.  For a well-formed
`Life` with current field `F` and any shift `(dx, dy)`, in particular one with
`0 <= dx < w` and `0 <= dy < h`, the current field after `Step` from the
shifted field is the shift of the current field after `Step` from `F`. -/
theorem C20_step_shift (l : Life) (hl : l.WF) (dx dy : Int) :
    ∃ l1 l2, l.Step = .ok l1 ∧ Life.Step { l with a := l.a.shift dx dy } = .ok l2 ∧
      l2.a = l1.a.shift dx dy := by
  obtain ⟨ha, hb, haw, hah, hbw, hbh⟩ := hl
  obtain ⟨b1, h1, hwf1, hw1, hh1, hc1⟩ := Life.Step_spec l ⟨ha, hb, haw, hah, hbw, hbh⟩
  have hl2 : Life.WF { l with a := l.a.shift dx dy } :=
    ⟨Field.shift_wf ha dx dy, hb, haw, hah, hbw, hbh⟩
  obtain ⟨b2, h2, hwf2, hw2, hh2, hc2⟩ := Life.Step_spec _ hl2
  refine ⟨_, _, h1, h2, ?_⟩
  show b2 = b1.shift dx dy
  have hw2' : b2.w = l.w := hw2
  have hh2' : b2.h = l.h := hh2
  apply Field.ext_cells hwf2 (Field.shift_wf hwf1 dx dy)
  · show b2.w = b1.w
    omega
  · show b2.h = b1.h
    omega
  · intro x y hx0 hx hy0 hy
    have hw0 := ha.1
    have hh0 := ha.2.1
    have e1 := hc2 x y hx0 (by omega) hy0 (by omega)
    have e2 : (l.a.shift dx dy).nextCell x y
        = l.a.nextCell ((x + dx) % l.a.w) ((y + dy) % l.a.h) :=
      Field.nextCell_shift l.a ha dx dy hx0 (by omega) hy0 (by omega)
    have e3 := hc1 ((x + dx) % l.w) ((y + dy) % l.h) (Int.emod_nonneg _ (by omega))
      (Int.emod_lt_of_pos _ (by omega)) (Int.emod_nonneg _ (by omega))
      (Int.emod_lt_of_pos _ (by omega))
    rw [Field.cell_shift b1 dx dy hx0 (by omega) hy0 (by omega), hw1, hh1, e3]
    rw [haw, hah] at e2
    exact e1.trans e2

/-- C20 at `sampleLife`, shifted by `(1, 2)`. -/
theorem C20_step_shift_witness :
    ∃ l1 l2, sampleLife.Step = .ok l1 ∧
      Life.Step { sampleLife with a := sampleLife.a.shift 1 2 } = .ok l2 ∧
      l2.a = l1.a.shift 1 2 :=
  C20_step_shift sampleLife (by decide) 1 2

end Golgo
